/-
Verification of the research-orchestration engine of the Reaserch-Cli
repository against its natural-language specification.

The definitions below are a shallow embedding of the TypeScript source:
pure functions become Lean functions, JavaScript numbers become rationals
(with an explicit `JSNum` type where NaN/±Infinity matter), optional
fields become `Option`, JS `Map`s become insertion-ordered association
lists, and every external service call (language model, search provider,
`JSON.parse`, `Number(...)`, regex repair) is passed in as an explicit
oracle function.  Status-callback telemetry is advisory in the source and
is not modelled.
-/
import Mathlib

namespace ResearchCli

/-! ### JavaScript-flavoured string primitives

`jsTrim`, whitespace collapsing and lower-casing mirror `String.prototype.trim`,
`replace(/\s+/g, ' ')` and `toLowerCase` (over the whitespace characters the
source can realistically see). -/

def isJsWhitespace (c : Char) : Bool :=
  c = ' ' || c = '\t' || c = '\n' || c = '\r' || c = '\x0b' || c = '\x0c'

def trimCharList (l : List Char) : List Char :=
  ((l.dropWhile isJsWhitespace).reverse.dropWhile isJsWhitespace).reverse

def jsTrim (s : String) : String := String.mk (trimCharList s.data)

/-- Collapse runs of whitespace to single spaces, mirroring
`replace(/\s+/g, ' ')`; the boolean tracks whether the previous
character was part of a whitespace run. -/
def collapseWsAux : Bool → List Char → List Char
  | _, [] => []
  | prevWs, c :: rest =>
    if isJsWhitespace c then
      if prevWs then collapseWsAux true rest
      else ' ' :: collapseWsAux true rest
    else c :: collapseWsAux false rest

def jsToLower (s : String) : String := String.mk (s.data.map Char.toLower)

/-- `normalizeQueryKey` from `sub-agent.ts` / `runDeepReport`:
`q.trim().replace(/\s+/g, ' ').toLowerCase()`. -/
def normalizeQueryKey (q : String) : String :=
  jsToLower (String.mk (collapseWsAux false (trimCharList q.data)))

/-- `str.slice(0, n)` for a non-negative count. -/
def strTake (s : String) (n : Nat) : String := String.mk (s.data.take n)

/-- JS `a || b` on strings (empty string is falsy). -/
def jsOrStr (a b : String) : String := if a = "" then b else a

/-- Fuel-based splitter kernel (the fuel is pre-set to the input length, so
the `0` clause is never reached). -/
def splitGo (sep : List Char) : Nat → List Char → List Char → List String
  | 0, l, acc => [String.mk (acc.reverse ++ l)]
  | fuel + 1, l, acc =>
    match l with
    | [] => [String.mk acc.reverse]
    | c :: rest =>
      if sep.isPrefixOf (c :: rest) then
        String.mk acc.reverse :: splitGo sep fuel ((c :: rest).drop sep.length) []
      else splitGo sep fuel rest (c :: acc)

/-- Split on a non-empty separator, left to right, non-overlapping. -/
def strSplitOn (s sep : String) : List String :=
  if sep = "" then [s]
  else splitGo sep.data (s.data.length + 1) s.data []

/-! ### The `ExaSearchResult` record (`clients/exa.ts`) -/

@[ext]
structure ExaSearchResult where
  id : String
  url : String
  title : String
  score : Option ℚ
  publishedDate : Option String
  author : Option String
  text : Option String
  highlights : Option (List String)
  summary : Option String
deriving DecidableEq, Repr, Inhabited

def optLen : Option String → Nat
  | none => 0
  | some s => s.length

def optCount : Option (List String) → Nat
  | none => 0
  | some l => l.length

def optScore : Option ℚ → ℚ
  | none => 0
  | some q => q

/-! ### The URL-keyed merge rule (`sub-agent.ts`, `mergeResult`)

`{...existing, ...next}` takes `next`'s value for every field that is
present on `next` and `existing`'s value otherwise; the explicit
`text`/`summary`/`highlights`/`score` entries then override that spread. -/

def mergeRecord (existing next : ExaSearchResult) : ExaSearchResult where
  id := next.id
  url := next.url
  title := next.title
  score := some (max (optScore existing.score) (optScore next.score))
  publishedDate := next.publishedDate.orElse fun _ => existing.publishedDate
  author := next.author.orElse fun _ => existing.author
  text :=
    match next.text with
    | some t => if t ≠ "" ∧ optLen existing.text < t.length then some t else existing.text
    | none => existing.text
  highlights :=
    match next.highlights with
    | some h => if optCount existing.highlights < h.length then some h else existing.highlights
    | none => existing.highlights
  summary :=
    match next.summary with
    | some t => if t ≠ "" ∧ optLen existing.summary < t.length then some t else existing.summary
    | none => existing.summary

/-- Folding the merge rule over a list of same-URL records,
as repeated `mergeResult` calls do. -/
def mergeFold (a : ExaSearchResult) (l : List ExaSearchResult) : ExaSearchResult :=
  l.foldl mergeRecord a

lemma optLen_some (s : String) : optLen (some s) = s.length := rfl

lemma mergeRecord_text_len (a b : ExaSearchResult) :
    optLen (mergeRecord a b).text = max (optLen a.text) (optLen b.text) := by
  show optLen (match b.text with
      | some t => if t ≠ "" ∧ optLen a.text < t.length then some t else a.text
      | none => a.text) = max (optLen a.text) (optLen b.text)
  rcases b.text with _ | t
  · simp [optLen]
  · simp only
    split_ifs with hcond
    · simp only [optLen_some]
      omega
    · push_neg at hcond
      by_cases ht : t = ""
      · subst ht
        have h0 : ("" : String).length = 0 := rfl
        simp only [optLen_some, h0]
        omega
      · have hle := hcond ht
        simp only [optLen_some] at hle ⊢
        omega

lemma mergeRecord_summary_len (a b : ExaSearchResult) :
    optLen (mergeRecord a b).summary = max (optLen a.summary) (optLen b.summary) := by
  show optLen (match b.summary with
      | some t => if t ≠ "" ∧ optLen a.summary < t.length then some t else a.summary
      | none => a.summary) = max (optLen a.summary) (optLen b.summary)
  rcases b.summary with _ | t
  · simp [optLen]
  · simp only
    split_ifs with hcond
    · simp only [optLen_some]
      omega
    · push_neg at hcond
      by_cases ht : t = ""
      · subst ht
        have h0 : ("" : String).length = 0 := rfl
        simp only [optLen_some, h0]
        omega
      · have hle := hcond ht
        simp only [optLen_some] at hle ⊢
        omega

lemma optCount_some (l : List String) : optCount (some l) = l.length := rfl

lemma mergeRecord_highlights_len (a b : ExaSearchResult) :
    optCount (mergeRecord a b).highlights
      = max (optCount a.highlights) (optCount b.highlights) := by
  show optCount (match b.highlights with
      | some h => if optCount a.highlights < h.length then some h else a.highlights
      | none => a.highlights) = max (optCount a.highlights) (optCount b.highlights)
  rcases b.highlights with _ | h
  · simp [optCount]
  · simp only
    split_ifs with hcond
    · simp only [optCount_some]
      omega
    · simp only [optCount_some] at hcond ⊢
      omega

lemma mergeRecord_score (a b : ExaSearchResult) :
    (mergeRecord a b).score = some (max (optScore a.score) (optScore b.score)) := rfl

lemma orElse_right_absorb {α : Type} (x y : Option α) :
    (x.orElse fun _ => x.orElse fun _ => y) = x.orElse fun _ => y := by
  cases x <;> rfl

lemma mergeRecord_idem (a b : ExaSearchResult) :
    mergeRecord (mergeRecord a b) b = mergeRecord a b := by
  have htext : (mergeRecord (mergeRecord a b) b).text = (mergeRecord a b).text := by
    show (match b.text with
        | some t =>
          if t ≠ "" ∧ optLen (mergeRecord a b).text < t.length then some t
          else (mergeRecord a b).text
        | none => (mergeRecord a b).text) = (mergeRecord a b).text
    rcases hb : b.text with _ | t
    · rfl
    · have hlen : t.length ≤ optLen (mergeRecord a b).text := by
        rw [mergeRecord_text_len, hb, optLen_some]
        omega
      simp only
      rw [if_neg]
      rintro ⟨-, hlt⟩
      omega
  have hsum : (mergeRecord (mergeRecord a b) b).summary = (mergeRecord a b).summary := by
    show (match b.summary with
        | some t =>
          if t ≠ "" ∧ optLen (mergeRecord a b).summary < t.length then some t
          else (mergeRecord a b).summary
        | none => (mergeRecord a b).summary) = (mergeRecord a b).summary
    rcases hb : b.summary with _ | t
    · rfl
    · have hlen : t.length ≤ optLen (mergeRecord a b).summary := by
        rw [mergeRecord_summary_len, hb, optLen_some]
        omega
      simp only
      rw [if_neg]
      rintro ⟨-, hlt⟩
      omega
  have hhl : (mergeRecord (mergeRecord a b) b).highlights = (mergeRecord a b).highlights := by
    show (match b.highlights with
        | some h =>
          if optCount (mergeRecord a b).highlights < h.length then some h
          else (mergeRecord a b).highlights
        | none => (mergeRecord a b).highlights) = (mergeRecord a b).highlights
    rcases hb : b.highlights with _ | h
    · rfl
    · have hlen : h.length ≤ optCount (mergeRecord a b).highlights := by
        rw [mergeRecord_highlights_len, hb, optCount_some]
        omega
      simp only
      rw [if_neg]
      omega
  have hscore : (mergeRecord (mergeRecord a b) b).score = (mergeRecord a b).score := by
    show some (max (optScore (mergeRecord a b).score) (optScore b.score))
        = (mergeRecord a b).score
    rw [mergeRecord_score]
    show some (max (max (optScore a.score) (optScore b.score)) (optScore b.score))
        = some (max (optScore a.score) (optScore b.score))
    rw [max_assoc, max_self]
  apply ExaSearchResult.ext
  · rfl
  · rfl
  · rfl
  · exact hscore
  · exact orElse_right_absorb b.publishedDate a.publishedDate
  · exact orElse_right_absorb b.author a.author
  · exact htext
  · exact hhl
  · exact hsum

lemma mergeFold_score (a : ExaSearchResult) (l : List ExaSearchResult) (h : l ≠ []) :
    (mergeFold a l).score
      = some ((l.map (fun r => optScore r.score)).foldl max (optScore a.score)) := by
  induction l generalizing a with
  | nil => exact absurd rfl h
  | cons b t ih =>
    rcases t with _ | ⟨c, t'⟩
    · show (mergeRecord a b).score = _
      rw [mergeRecord_score]
      rfl
    · have step : mergeFold a (b :: c :: t') = mergeFold (mergeRecord a b) (c :: t') := rfl
      rw [step, ih (mergeRecord a b) (by simp)]
      rw [mergeRecord_score]
      simp only [List.map_cons, List.foldl_cons, optScore]

/-- **C2** (amended).  Folding the URL-keyed merge rule over any collection of
same-URL records yields a record whose `text` length, `summary` length,
`highlights` count and `score` are each the maximum across all inputs (an
absent field counting as length 0, an absent score as 0), and the binary
merge is idempotent: `merge (merge a b) b = merge a b`.  (The rule is *not*
commutative; see the counterexample.) -/
theorem mergeResult_max_and_idem (a : ExaSearchResult) (l : List ExaSearchResult) :
    optLen (mergeFold a l).text = (l.map (fun r => optLen r.text)).foldl max (optLen a.text)
    ∧ optLen (mergeFold a l).summary
        = (l.map (fun r => optLen r.summary)).foldl max (optLen a.summary)
    ∧ optCount (mergeFold a l).highlights
        = (l.map (fun r => optCount r.highlights)).foldl max (optCount a.highlights)
    ∧ (l ≠ [] → (mergeFold a l).score
        = some ((l.map (fun r => optScore r.score)).foldl max (optScore a.score)))
    ∧ (∀ b : ExaSearchResult, mergeRecord (mergeRecord a b) b = mergeRecord a b) := by
  refine ⟨?_, ?_, ?_, ?_, fun b => mergeRecord_idem a b⟩
  · induction l generalizing a with
    | nil => rfl
    | cons b t ih =>
      simp only [mergeFold, List.foldl_cons, List.map_cons] at *
      rw [ih (mergeRecord a b), mergeRecord_text_len]
  · induction l generalizing a with
    | nil => rfl
    | cons b t ih =>
      simp only [mergeFold, List.foldl_cons, List.map_cons] at *
      rw [ih (mergeRecord a b), mergeRecord_summary_len]
  · induction l generalizing a with
    | nil => rfl
    | cons b t ih =>
      simp only [mergeFold, List.foldl_cons, List.map_cons] at *
      rw [ih (mergeRecord a b), mergeRecord_highlights_len]
  · exact fun h => mergeFold_score a l h

/-- **C2** counterexample: the merge rule is not commutative.  Two records
sharing a URL whose texts have equal length (and whose titles differ) merge
differently depending on the order: on length ties the *first* record's
`text` is kept, while `title` always comes from the *second*. -/
theorem mergeResult_not_commutative :
    mergeRecord
        { id := "1", url := "https://a.example", title := "ta", score := some 1,
          publishedDate := none, author := none, text := some "ab",
          highlights := none, summary := none }
        { id := "2", url := "https://a.example", title := "tb", score := some 2,
          publishedDate := none, author := none, text := some "cd",
          highlights := none, summary := none }
      ≠ mergeRecord
        { id := "2", url := "https://a.example", title := "tb", score := some 2,
          publishedDate := none, author := none, text := some "cd",
          highlights := none, summary := none }
        { id := "1", url := "https://a.example", title := "ta", score := some 1,
          publishedDate := none, author := none, text := some "ab",
          highlights := none, summary := none } := by
  decide

/-! ### `analyzeSources` context building (`sub-agent.ts`, lines 392-418)

The loop walks the merged sources, slices each source's raw text to a
per-source cap (`expandedTextChars` for expanded URLs, `sourceTextChars`
otherwise) further limited by the remaining total budget, pushes a
`[Source N] title\nURL: url\n content` part, and stops once the budget
is exhausted.  A finite budget is an integer (`Math.trunc` of the
configured value); `none` models `Infinity`. -/

/-- `sliceText` from `analyzeSources` with a natural-number cap (the code's
cap is `min(perSourceCap, remaining) ≥ 0` in the finite case). -/
def sliceText (input : String) (maxChars : Nat) : String :=
  if input.length ≤ maxChars then input else strTake input maxChars

/-- `s.text || s.highlights?.join('\n') || s.summary || ''`. -/
def rawSourceText (s : ExaSearchResult) : String :=
  jsOrStr (s.text.getD "")
    (jsOrStr (String.intercalate "\n" (s.highlights.getD [])) (s.summary.getD ""))

structure ContextEntry where
  source : ExaSearchResult
  content : String
deriving DecidableEq, Repr

/-- The per-source cap: `expandedTextChars` if the URL was expanded,
`sourceTextChars` otherwise. -/
def perSourceCap (sourceTextChars expandedTextChars : Nat)
    (expandedUrls : List String) (s : ExaSearchResult) : Nat :=
  if s.url ∈ expandedUrls then expandedTextChars else sourceTextChars

/-- The source-walking loop of `analyzeSources`; `remaining = none`
models an infinite `maxTotalSourceChars` budget. -/
def contextGo (sourceTextChars expandedTextChars : Nat) (expandedUrls : List String) :
    List ExaSearchResult → Option Nat → List ContextEntry
  | [], _ => []
  | s :: rest, remaining =>
    let raw := rawSourceText s
    let cap := match remaining with
      | some r => min (perSourceCap sourceTextChars expandedTextChars expandedUrls s) r
      | none => perSourceCap sourceTextChars expandedTextChars expandedUrls s
    let content := sliceText raw cap
    ContextEntry.mk s content ::
      (match remaining with
        | some r =>
          if r - content.length = 0 then []
          else contextGo sourceTextChars expandedTextChars expandedUrls rest
                 (some (r - content.length))
        | none => contextGo sourceTextChars expandedTextChars expandedUrls rest none)

/-- The initial `remaining` budget: `Math.max(0, Math.trunc(C))` for a finite
configured budget `C`, infinite otherwise. -/
def initialRemaining : Option ℤ → Option Nat
  | some c => some (max 0 c).toNat
  | none => none

def contextEntries (sourceTextChars expandedTextChars : Nat) (budget : Option ℤ)
    (expandedUrls : List String) (sources : List ExaSearchResult) : List ContextEntry :=
  contextGo sourceTextChars expandedTextChars expandedUrls sources (initialRemaining budget)

/-- One pushed part: `[Source ${i + 1}] ${s.title}\nURL: ${s.url}\n${content}`. -/
def renderContextPart (i : Nat) (e : ContextEntry) : String :=
  "[Source " ++ toString (i + 1) ++ "] " ++ e.source.title ++ "\nURL: "
    ++ e.source.url ++ "\n" ++ e.content

/-- `sourceContextParts.join('\n\n---\n\n')`. -/
def buildSourceContext (sourceTextChars expandedTextChars : Nat) (budget : Option ℤ)
    (expandedUrls : List String) (sources : List ExaSearchResult) : String :=
  String.intercalate "\n\n---\n\n"
    ((contextEntries sourceTextChars expandedTextChars budget expandedUrls sources).enum.map
      (fun p => renderContextPart p.1 p.2))

lemma sliceText_length_le (input : String) (maxChars : Nat) :
    (sliceText input maxChars).length ≤ maxChars := by
  unfold sliceText
  split_ifs with h
  · exact h
  · show (String.mk (input.data.take maxChars)).length ≤ maxChars
    show (input.data.take maxChars).length ≤ maxChars
    simp [List.length_take]

lemma contextGo_sum_le (stc etc : Nat) (expandedUrls : List String)
    (sources : List ExaSearchResult) (r : Nat) :
    ((contextGo stc etc expandedUrls sources (some r)).map
      (fun e => e.content.length)).sum ≤ r := by
  induction sources generalizing r with
  | nil => simp [contextGo]
  | cons s rest ih =>
    simp only [contextGo, List.map_cons, List.sum_cons]
    set cap := min (perSourceCap stc etc expandedUrls s) r with hcap
    have hcontent : (sliceText (rawSourceText s) cap).length ≤ r :=
      le_trans (sliceText_length_le _ _) (by omega)
    split_ifs with h0
    · simpa using hcontent
    · have := ih (r - (sliceText (rawSourceText s) cap).length)
      simp only [List.map, List.sum_cons] at this ⊢
      omega

lemma contextGo_content_le_cap (stc etc : Nat) (expandedUrls : List String)
    (sources : List ExaSearchResult) (remaining : Option Nat) :
    ∀ e ∈ contextGo stc etc expandedUrls sources remaining,
      e.content.length ≤ perSourceCap stc etc expandedUrls e.source := by
  induction sources generalizing remaining with
  | nil => simp [contextGo]
  | cons s rest ih =>
    intro e he
    rcases remaining with _ | r
    · simp only [contextGo, List.mem_cons] at he
      rcases he with he | he
      · subst he
        exact le_trans (sliceText_length_le _ _) le_rfl
      · exact ih none e he
    · simp only [contextGo, List.mem_cons] at he
      rcases he with he | he
      · subst he
        exact le_trans (sliceText_length_le _ _) (min_le_left _ _)
      · split_ifs at he with h0
        · exact absurd he (List.not_mem_nil e)
        · exact ih _ e he

lemma contextGo_sources_prefix (stc etc : Nat) (expandedUrls : List String)
    (sources : List ExaSearchResult) (remaining : Option Nat) :
    (contextGo stc etc expandedUrls sources remaining).map (fun e => e.source)
      = sources.take (contextGo stc etc expandedUrls sources remaining).length := by
  induction sources generalizing remaining with
  | nil => simp [contextGo]
  | cons s rest ih =>
    rcases remaining with _ | r
    · simp only [contextGo, List.map_cons, List.length_cons, List.take_succ_cons]
      rw [ih none]
    · simp only [contextGo, List.map_cons, List.length_cons, List.take_succ_cons]
      split_ifs with h0
      · simp
      · rw [ih]

/-- **C5** (amended).  For a finite total budget `C`, the per-source *content*
excerpts that `analyzeSources` concatenates sum to at most `max 0 C`
characters; each source contributes at most `expandedTextChars` characters of
content if its URL was expanded and at most `sourceTextChars` otherwise; and
the entries cover an initial prefix of the source list (the loop stops adding
sources once the budget is exhausted).  The full context *string* additionally
contains the `[Source N]`/title/URL headers and the `\n\n---\n\n` separators,
which are not charged against the budget — see the counterexample. -/
theorem analyzeSources_budget (sourceTextChars expandedTextChars : Nat) (c : ℤ)
    (expandedUrls : List String) (sources : List ExaSearchResult) :
    ((contextEntries sourceTextChars expandedTextChars (some c) expandedUrls sources).map
        (fun e => e.content.length)).sum ≤ (max 0 c).toNat
    ∧ (∀ e ∈ contextEntries sourceTextChars expandedTextChars (some c) expandedUrls sources,
        e.content.length
          ≤ perSourceCap sourceTextChars expandedTextChars expandedUrls e.source)
    ∧ (contextEntries sourceTextChars expandedTextChars (some c) expandedUrls sources).map
          (fun e => e.source)
        = sources.take
            (contextEntries sourceTextChars expandedTextChars (some c) expandedUrls
              sources).length :=
  ⟨contextGo_sum_le _ _ _ _ _,
   contextGo_content_le_cap _ _ _ _ _,
   contextGo_sources_prefix _ _ _ _ _⟩

/-- **C5** counterexample: the claim that the built source-context string
never exceeds `C = maxTotalSourceChars` characters is false — with `C = 1`
and a single source the context string is 21 characters long, because the
`[Source N] title\nURL: url\n` header is not charged against the budget. -/
theorem analyzeSources_context_exceeds_budget :
    ¬ (buildSourceContext 2200 4500 (some 1) []
        [{ id := "1", url := "u", title := "t", score := some 1,
           publishedDate := none, author := none, text := some "aa",
           highlights := none, summary := none }]).length ≤ 1 := by
  decide

/-! ### Research steps and reports (`research/planner.ts`, `sub-agent.ts`) -/

inductive StepStatus where
  | pending | inProgress | complete | error
deriving DecidableEq, Repr

structure ResearchStep where
  id : Nat
  question : String
  searchQuery : String
  purpose : String
  status : StepStatus
deriving DecidableEq, Repr

instance : Inhabited ResearchStep := ⟨⟨0, "", "", "", .pending⟩⟩

structure SubAgentReport where
  step : ResearchStep
  summary : String
  sources : List ExaSearchResult
  expandedSources : Option (List ExaSearchResult)
  keyInsights : List String
deriving DecidableEq, Repr

/-! ### The parallel research runner (`sub-agent.ts`, `runParallelResearch`)

Workers share a mutable `nextIndex` counter; each worker claims the next
index and awaits the agent on that step.  We model the interleaving as a
small-step machine driven by an arbitrary schedule of worker activations:
scheduling an idle worker performs the (synchronous, hence atomic)
`nextIndex++` claim; scheduling a running worker completes its step and
writes the report to the claimed slot.  The per-step outcome of
`agent.research` — a report or a thrown error — is an oracle. -/

/-- The degraded report `runOne` synthesizes in its catch branch. -/
def failHeader : String :=
  "## Key Findings\n- Sub-agent failed to complete\n\n## Details\n"

def failFooter : String :=
  "\n\n## Sources Used\n- (none)\n\n## Gaps or Uncertainties\n- This sub-topic could not be completed due to an error."

def degradedReport (step : ResearchStep) (message : String) : SubAgentReport where
  step := step
  summary := failHeader ++ message ++ failFooter
  sources := []
  expandedSources := none
  keyInsights := []

/-- `runOne(steps[i], i)`: the agent's report on success, the degraded
report when the invocation throws. -/
def expectedReport (steps : List ResearchStep)
    (outcomes : Nat → Except String SubAgentReport) (i : Nat) : SubAgentReport :=
  match outcomes i with
  | .ok r => r
  | .error msg => degradedReport (steps.getD i default) msg

inductive WorkerStatus where
  | idle
  | running (idx : Nat)
  | done
deriving DecidableEq, Repr

structure PoolState where
  counter : Nat
  workers : List WorkerStatus
  results : List (Option SubAgentReport)
  log : List Nat
deriving DecidableEq, Repr

def initPool (n c : Nat) : PoolState where
  counter := 0
  workers := List.replicate c .idle
  results := List.replicate n none
  log := []

/-- One scheduler step: activate worker `w`.  An idle worker executes
`const index = nextIndex++; if (index >= steps.length) break;`; a running
worker finishes `await runOne(steps[index], index)` and stores the result
at its claimed slot. -/
def poolStep (n : Nat) (report : Nat → SubAgentReport) (s : PoolState) (w : Nat) : PoolState :=
  match s.workers.get? w with
  | none => s
  | some .done => s
  | some .idle =>
    { s with
      counter := s.counter + 1
      workers := s.workers.set w (if n ≤ s.counter then .done else .running s.counter) }
  | some (.running i) =>
    { s with
      workers := s.workers.set w .idle
      results := s.results.set i (some (report i))
      log := s.log ++ [i] }

def poolRun (n : Nat) (report : Nat → SubAgentReport) (s : PoolState)
    (sched : List Nat) : PoolState :=
  sched.foldl (poolStep n report) s

/-- The indices currently claimed by running workers. -/
def claimedOf (workers : List WorkerStatus) : List Nat :=
  workers.filterMap fun st =>
    match st with
    | .running i => some i
    | _ => none

def statusIdx : WorkerStatus → Option Nat
  | .running i => some i
  | _ => none

/-- The machine invariant: results slots exist for every step; the claimed
indices together with the completion log form a permutation of the indices
handed out so far; a slot is filled (with the expected report) exactly when
its index is logged; and a worker can only retire once the counter has
passed `n`. -/
structure PoolInv (n c : Nat) (report : Nat → SubAgentReport) (s : PoolState) : Prop where
  workers_len : s.workers.length = c
  results_len : s.results.length = n
  perm : (claimedOf s.workers ++ s.log).Perm (List.range (min s.counter n))
  results_log : ∀ i, i < n →
    (i ∈ s.log ∧ s.results.get? i = some (some (report i)))
    ∨ (i ∉ s.log ∧ s.results.get? i = some none)
  done_counter : (∃ w ∈ s.workers, w = .done) → n ≤ s.counter

lemma claimedOf_eq_filterMap (workers : List WorkerStatus) :
    claimedOf workers = workers.filterMap statusIdx := by
  unfold claimedOf statusIdx
  rfl

lemma filterMap_set_perm {α β : Type} (f : α → Option β) (l : List α) (w : Nat) (v : α)
    (h : w < l.length) :
    ((f v).toList ++ l.filterMap f).Perm
      ((f (l.get ⟨w, h⟩)).toList ++ (l.set w v).filterMap f) := by
  induction l generalizing w with
  | nil => simp at h
  | cons a t ih =>
    cases w with
    | zero =>
      show ((f v).toList ++ (a :: t).filterMap f).Perm
        ((f a).toList ++ (v :: t).filterMap f)
      rcases hv : f v with _ | bv <;> rcases ha : f a with _ | ba <;>
        simp only [List.filterMap_cons, hv, ha, Option.toList, List.nil_append,
          List.cons_append, List.singleton_append]
      · exact List.Perm.refl _
      · exact List.Perm.refl _
      · exact List.Perm.refl _
      · exact List.Perm.swap ba bv _
    | succ w' =>
      have h' : w' < t.length := by simpa using h
      have hih := ih w' h'
      show ((f v).toList ++ (a :: t).filterMap f).Perm
        ((f (t.get ⟨w', h'⟩)).toList ++ (a :: t.set w' v).filterMap f)
      rcases ha : f a with _ | ba
      · simpa [List.filterMap_cons, ha] using hih
      · simp only [List.filterMap_cons, ha]
        exact List.perm_middle.trans ((hih.cons ba).trans List.perm_middle.symm)

lemma get?_eq_get_of_lt {α : Type} (l : List α) (w : Nat) (h : w < l.length) :
    l.get? w = some (l.get ⟨w, h⟩) := List.get?_eq_get h

lemma get?_set_self {α : Type} (l : List α) (i : Nat) (v : α) (h : i < l.length) :
    (l.set i v).get? i = some v := by
  induction l generalizing i with
  | nil => simp at h
  | cons a t ih =>
    cases i with
    | zero => rfl
    | succ i' => exact ih i' (by simpa using h)

lemma get?_set_ne {α : Type} (l : List α) (i j : Nat) (v : α) (h : i ≠ j) :
    (l.set i v).get? j = l.get? j := by
  induction l generalizing i j with
  | nil => simp
  | cons a t ih =>
    cases i with
    | zero =>
      cases j with
      | zero => exact absurd rfl h
      | succ j' => rfl
    | succ i' =>
      cases j with
      | zero => rfl
      | succ j' => exact ih i' j' fun hc => h (by rw [hc])

lemma poolStep_inv (n c : Nat) (report : Nat → SubAgentReport) (s : PoolState) (w : Nat)
    (hinv : PoolInv n c report s) : PoolInv n c report (poolStep n report s w) := by
  rcases hw : s.workers.get? w with _ | st
  · unfold poolStep
    rw [hw]
    exact hinv
  · obtain ⟨hwlt, hget⟩ := List.get?_eq_some.mp hw
    cases st with
    | done =>
      simp only [poolStep, hw]
      exact hinv
    | idle =>
      simp only [poolStep, hw]
      by_cases hcnt : n ≤ s.counter
      · rw [if_pos hcnt]
        have hperm0 := filterMap_set_perm statusIdx s.workers w .done hwlt
        rw [hget] at hperm0
        simp only [statusIdx, Option.toList, List.nil_append] at hperm0
        refine ⟨?_, hinv.results_len, ?_, hinv.results_log, ?_⟩
        · simpa [List.length_set] using hinv.workers_len
        · show (claimedOf (s.workers.set w .done) ++ s.log).Perm
            (List.range (min (s.counter + 1) n))
          have hmin : min (s.counter + 1) n = min s.counter n := by omega
          rw [hmin, claimedOf_eq_filterMap]
          have hip := hinv.perm
          rw [claimedOf_eq_filterMap] at hip
          exact (hperm0.symm.append_right s.log).trans hip
        · intro _
          show n ≤ s.counter + 1
          omega
      · rw [if_neg hcnt]
        have hperm0 := filterMap_set_perm statusIdx s.workers w (.running s.counter) hwlt
        rw [hget] at hperm0
        simp only [statusIdx, Option.toList, List.nil_append,
          List.singleton_append] at hperm0
        -- `hperm0 : (counter :: claimed).Perm claimed'`
        refine ⟨?_, hinv.results_len, ?_, hinv.results_log, ?_⟩
        · simpa [List.length_set] using hinv.workers_len
        · show (claimedOf (s.workers.set w (.running s.counter)) ++ s.log).Perm
            (List.range (min (s.counter + 1) n))
          have hmin1 : min (s.counter + 1) n = s.counter + 1 := by omega
          have hmin2 : min s.counter n = s.counter := by omega
          rw [hmin1, List.range_succ, claimedOf_eq_filterMap]
          have hip := hinv.perm
          rw [claimedOf_eq_filterMap, hmin2] at hip
          have h1 : ((s.workers.set w (.running s.counter)).filterMap statusIdx
              ++ s.log).Perm
              ((s.counter :: s.workers.filterMap statusIdx) ++ s.log) :=
            hperm0.symm.append_right s.log
          have h2 : ((s.counter :: s.workers.filterMap statusIdx) ++ s.log)
              = s.counter :: (s.workers.filterMap statusIdx ++ s.log) := by simp
          have h3 : (s.counter :: (s.workers.filterMap statusIdx ++ s.log)).Perm
              (s.counter :: List.range s.counter) := hip.cons s.counter
          have h4 : (s.counter :: List.range s.counter).Perm
              (List.range s.counter ++ [s.counter]) := by
            simpa using
              (@List.perm_middle ℕ s.counter (List.range s.counter) []).symm
          exact h1.trans (h2 ▸ h3.trans h4)
        · intro hdone
          obtain ⟨w', hw', hwdone⟩ := hdone
          subst hwdone
          rcases List.mem_or_eq_of_mem_set hw' with hmem | heq
          · show n ≤ s.counter + 1
            exact le_trans (hinv.done_counter ⟨_, hmem, rfl⟩) (by omega)
          · exact absurd heq (by simp)
    | running i =>
      simp only [poolStep, hw]
      have hperm0 := filterMap_set_perm statusIdx s.workers w .idle hwlt
      rw [hget] at hperm0
      simp only [statusIdx, Option.toList, List.nil_append] at hperm0
      -- `hperm0 : claimed ~ [i] ++ claimed'`
      have hi_mem : i ∈ claimedOf s.workers := by
        rw [claimedOf_eq_filterMap]
        exact List.mem_filterMap.mpr ⟨.running i, hget ▸ List.get_mem _ _ _, rfl⟩
      have hi_lt : i < n := by
        have : i ∈ List.range (min s.counter n) :=
          hinv.perm.mem_iff.mp (List.mem_append_left _ hi_mem)
        have := List.mem_range.mp this
        omega
      have hnodup : (claimedOf s.workers ++ s.log).Nodup :=
        hinv.perm.nodup_iff.mpr (List.nodup_range _)
      have hi_notlog : i ∉ s.log := by
        rcases List.nodup_append.mp hnodup with ⟨-, -, hdisj⟩
        exact fun hmem => hdisj hi_mem hmem
      refine ⟨?_, ?_, ?_, ?_, ?_⟩
      · simpa [List.length_set] using hinv.workers_len
      · simpa [List.length_set] using hinv.results_len
      · show (claimedOf (s.workers.set w .idle) ++ (s.log ++ [i])).Perm
            (List.range (min s.counter n))
        rw [claimedOf_eq_filterMap]
        have hip := hinv.perm
        rw [claimedOf_eq_filterMap] at hip
        have h1 : (s.workers.set w .idle).filterMap statusIdx ++ (s.log ++ [i])
            = ((s.workers.set w .idle).filterMap statusIdx ++ s.log) ++ [i] := by
          simp [List.append_assoc]
        have h2 : (((s.workers.set w .idle).filterMap statusIdx ++ s.log) ++ [i]).Perm
            ([i] ++ ((s.workers.set w .idle).filterMap statusIdx ++ s.log)) :=
          List.perm_append_comm
        have h3 : [i] ++ ((s.workers.set w .idle).filterMap statusIdx ++ s.log)
            = (i :: (s.workers.set w .idle).filterMap statusIdx) ++ s.log := by simp
        have h4 : ((i :: (s.workers.set w .idle).filterMap statusIdx) ++ s.log).Perm
            (s.workers.filterMap statusIdx ++ s.log) :=
          hperm0.symm.append_right s.log
        rw [h1]
        exact h2.trans (h3 ▸ h4.trans hip)
      · intro j hj
        by_cases hji : j = i
        · subst hji
          left
          refine ⟨List.mem_append_right _ (by simp), ?_⟩
          exact get?_set_self _ _ _ (by rw [hinv.results_len]; exact hi_lt)
        · have hres : (s.results.set i (some (report i))).get? j = s.results.get? j :=
            get?_set_ne _ _ _ _ fun hc => hji hc.symm
          have hlog : j ∈ s.log ++ [i] ↔ j ∈ s.log := by
            simp only [List.mem_append, List.mem_singleton]
            exact ⟨fun h => h.resolve_right hji, Or.inl⟩
          rcases hinv.results_log j hj with ⟨hl, hr⟩ | ⟨hl, hr⟩
          · left
            exact ⟨hlog.mpr hl, by rw [hres]; exact hr⟩
          · right
            exact ⟨fun hc => hl (hlog.mp hc), by rw [hres]; exact hr⟩
      · intro hdone
        obtain ⟨w', hw', hwdone⟩ := hdone
        rcases List.mem_or_eq_of_mem_set hw' with hmem | heq
        · exact hinv.done_counter ⟨w', hmem, hwdone⟩
        · rw [hwdone] at heq
          exact absurd heq.symm (by simp)

lemma poolRun_inv (n c : Nat) (report : Nat → SubAgentReport) (s : PoolState)
    (sched : List Nat) (hinv : PoolInv n c report s) :
    PoolInv n c report (poolRun n report s sched) := by
  induction sched generalizing s with
  | nil => exact hinv
  | cons w rest ih => exact ih _ (poolStep_inv n c report s w hinv)

lemma initPool_inv (n c : Nat) (report : Nat → SubAgentReport) :
    PoolInv n c report (initPool n c) := by
  refine ⟨by simp [initPool], by simp [initPool], ?_, ?_, ?_⟩
  · show (claimedOf (List.replicate c .idle) ++ []).Perm (List.range (min 0 n))
    have h1 : claimedOf (List.replicate c .idle) = [] := by
      rw [claimedOf_eq_filterMap]
      induction c with
      | zero => rfl
      | succ c' ih => simp only [List.replicate, List.filterMap_cons, statusIdx] at ih ⊢; exact ih
    simp [h1]
  · intro i hi
    right
    refine ⟨by simp [initPool], ?_⟩
    show (List.replicate n (none : Option SubAgentReport)).get? i = some none
    rw [List.get?_eq_get (by simpa [initPool] using hi)]
    simp
  · rintro ⟨w', hw', hwdone⟩
    subst hwdone
    have := List.eq_of_mem_replicate hw'
    exact absurd this (by simp)

/-- **C1**.  For every step list, every per-step outcome pattern and every
worker-pool schedule that runs the pool to completion (all workers
retired), the runner's result array has exactly one entry per step, entry
`i` holding `runOne`'s report for `steps[i]` (order preserved regardless of
completion order); the completion log visits every index exactly once (no
step runs twice, none is skipped); and a step whose agent invocation threw
gets the degraded report: a summary that is the failure template with the
error message embedded, no sources, and the original step attached. -/
theorem runParallelResearch_contract (steps : List ResearchStep)
    (outcomes : Nat → Except String SubAgentReport) (c : Nat) (hc : 1 ≤ c)
    (sched : List Nat)
    (hdone : ∀ w ∈ (poolRun steps.length (expectedReport steps outcomes)
        (initPool steps.length c) sched).workers, w = WorkerStatus.done) :
    (poolRun steps.length (expectedReport steps outcomes)
        (initPool steps.length c) sched).results.length = steps.length
    ∧ (∀ i, i < steps.length →
        (poolRun steps.length (expectedReport steps outcomes)
            (initPool steps.length c) sched).results.get? i
          = some (some (expectedReport steps outcomes i)))
    ∧ ((poolRun steps.length (expectedReport steps outcomes)
        (initPool steps.length c) sched).log).Perm (List.range steps.length)
    ∧ (∀ i, i < steps.length →
        ((poolRun steps.length (expectedReport steps outcomes)
            (initPool steps.length c) sched).log).count i = 1)
    ∧ (∀ i msg, i < steps.length → outcomes i = .error msg →
        expectedReport steps outcomes i
          = { step := steps.getD i default,
              summary := failHeader ++ msg ++ failFooter,
              sources := [], expandedSources := none, keyInsights := [] })
    ∧ (∀ i r, outcomes i = .ok r → expectedReport steps outcomes i = r) := by
  set n := steps.length with hn
  set final := poolRun n (expectedReport steps outcomes) (initPool n c) sched with hfinal
  have hinv : PoolInv n c (expectedReport steps outcomes) final :=
    poolRun_inv n c _ _ sched (initPool_inv n c _)
  have hclaimed : claimedOf final.workers = [] := by
    rw [claimedOf_eq_filterMap]
    rw [List.filterMap_eq_nil_iff]
    intro st hst
    rw [hdone st hst]
    rfl
  have hcount : n ≤ final.counter := by
    rcases Nat.eq_zero_or_pos n with h0 | hpos
    · omega
    · have hw0 : 0 < final.workers.length := by
        rw [hinv.workers_len]
        omega
      have hmem : final.workers.get ⟨0, hw0⟩ ∈ final.workers := List.get_mem _ _ _
      exact hinv.done_counter ⟨_, hmem, hdone _ hmem⟩
  have hlogperm : final.log.Perm (List.range n) := by
    have := hinv.perm
    rw [hclaimed, List.nil_append] at this
    have hmin : min final.counter n = n := by omega
    rwa [hmin] at this
  refine ⟨hinv.results_len, ?_, hlogperm, ?_, ?_, ?_⟩
  · intro i hi
    rcases hinv.results_log i hi with ⟨-, hr⟩ | ⟨hl, -⟩
    · exact hr
    · exact absurd (hlogperm.mem_iff.mpr (List.mem_range.mpr hi)) hl
  · intro i hi
    rw [hlogperm.count_eq]
    exact List.count_eq_one_of_mem (List.nodup_range n) (List.mem_range.mpr hi)
  · intro i msg hi herr
    unfold expectedReport
    rw [herr]
    rfl
  · intro i r hok
    unfold expectedReport
    rw [hok]

/-! ### The gap-analysis follow-up loop (`runDeepReport`, part of the
`DeepResearchAgent`)

`evaluateResearchGaps` returns a `needsMore` flag and a raw list of gap
proposals (already sliced to `maxGaps`); `runDeepReport` extracts and
trims each proposal's query, drops empty queries and queries whose
normalized key was already executed (or already accepted earlier in the
same round), converts survivors to fresh `ResearchStep`s and adds their
keys to the executed-query set. -/

/-- One raw gap proposal as the filter sees it: an arbitrary JSON element,
`none` when it is not an object, otherwise its four (possibly missing or
non-string) relevant fields. -/
structure RawGap where
  question : Option String
  query : Option String
  searchQuery : Option String
  purpose : Option String
deriving DecidableEq, Repr

/-- `typeof raw.query === 'string' ? raw.query.trim() :
typeof raw.searchQuery === 'string' ? raw.searchQuery.trim() : ''`. -/
def rawGapQuery (raw : RawGap) : String :=
  match raw.query with
  | some s => jsTrim s
  | none =>
    match raw.searchQuery with
    | some s => jsTrim s
    | none => ""

structure Gap where
  question : String
  query : String
  purpose : String
deriving DecidableEq, Repr

def gapQuestion (raw : RawGap) (query : String) : String :=
  jsOrStr (match raw.question with | some s => jsTrim s | none => "")
    ("Follow-up: " ++ query)

def gapPurpose (raw : RawGap) : String :=
  jsOrStr (match raw.purpose with | some s => jsTrim s | none => "")
    "Fill a remaining knowledge gap"

/-- The gap filter of `runDeepReport`: `seen` is the in-round `seenQueries`
set, `executed` the cross-round `executedQueries` set. -/
def gapFilterAux (executed : Finset String) :
    Finset String → List (Option RawGap) → List Gap
  | _, [] => []
  | seen, g :: rest =>
    match g with
    | none => gapFilterAux executed seen rest
    | some raw =>
      let query := rawGapQuery raw
      if query = "" then gapFilterAux executed seen rest
      else
        let key := normalizeQueryKey query
        if key = "" ∨ key ∈ seen ∨ key ∈ executed then gapFilterAux executed seen rest
        else
          { question := gapQuestion raw query, query := query, purpose := gapPurpose raw }
            :: gapFilterAux executed (insert key seen) rest

/-- One follow-up round: filter the proposals, then add the surviving
queries' keys to the executed set
(`gaps.forEach((gap) => executedQueries.add(normalizeQueryKey(gap.query)))`). -/
def gapRound (executed : Finset String) (proposed : List (Option RawGap)) :
    List Gap × Finset String :=
  let gaps := gapFilterAux executed ∅ proposed
  (gaps, gaps.foldl (fun s g => insert (normalizeQueryKey g.query) s) executed)

/-- The claim-side characterization of an invalid/duplicate proposal: its
key, when it is an object with a non-empty query. -/
def proposalKey : Option RawGap → Option String
  | none => none
  | some raw =>
    let q := rawGapQuery raw
    if q = "" then none
    else
      let k := normalizeQueryKey q
      if k = "" then none else some k

/-- A proposal is dropped iff it is invalid/empty, or its key was already
executed, or an earlier proposal in the same round carries the same key. -/
def specDroppedB (executed : Finset String) (earlier : List (Option RawGap))
    (g : Option RawGap) : Bool :=
  match proposalKey g with
  | none => true
  | some k => decide (k ∈ executed) || earlier.any (fun g2 => proposalKey g2 = some k)

def specDroppedCountAux (executed : Finset String) :
    List (Option RawGap) → List (Option RawGap) → Nat
  | _, [] => 0
  | earlier, g :: rest =>
    (if specDroppedB executed earlier g then 1 else 0)
      + specDroppedCountAux executed (earlier ++ [g]) rest

/-- The number `K` of proposals in a round that are empty/invalid or
duplicate an already-executed or earlier-in-round query. -/
def specDroppedCount (executed : Finset String) (proposed : List (Option RawGap)) : Nat :=
  specDroppedCountAux executed [] proposed

/-- The invariant tying the in-round `seen` set to the processed prefix:
`seen` holds exactly the not-yet-executed keys of earlier proposals. -/
def SeenInv (executed seen : Finset String) (earlier : List (Option RawGap)) : Prop :=
  ∀ k, k ∈ seen ↔ (k ∉ executed ∧ ∃ g ∈ earlier, proposalKey g = some k)

lemma seenInv_nil (executed : Finset String) : SeenInv executed ∅ [] := by
  intro k
  simp

lemma gapFilterAux_cons_none (executed seen : Finset String) (rest : List (Option RawGap)) :
    gapFilterAux executed seen (none :: rest) = gapFilterAux executed seen rest := rfl

lemma gapFilterAux_cons_some (executed seen : Finset String) (raw : RawGap)
    (rest : List (Option RawGap)) :
    gapFilterAux executed seen (some raw :: rest)
      = (if rawGapQuery raw = "" then gapFilterAux executed seen rest
         else if normalizeQueryKey (rawGapQuery raw) = ""
             ∨ normalizeQueryKey (rawGapQuery raw) ∈ seen
             ∨ normalizeQueryKey (rawGapQuery raw) ∈ executed
           then gapFilterAux executed seen rest
           else { question := gapQuestion raw (rawGapQuery raw),
                  query := rawGapQuery raw,
                  purpose := gapPurpose raw }
             :: gapFilterAux executed
                  (insert (normalizeQueryKey (rawGapQuery raw)) seen) rest) := rfl

lemma specDroppedCountAux_cons (executed : Finset String)
    (earlier : List (Option RawGap)) (g : Option RawGap) (rest : List (Option RawGap)) :
    specDroppedCountAux executed earlier (g :: rest)
      = (if specDroppedB executed earlier g then 1 else 0)
          + specDroppedCountAux executed (earlier ++ [g]) rest := rfl

lemma seenInv_append_none (executed seen : Finset String) (earlier : List (Option RawGap))
    (g : Option RawGap) (hkey : proposalKey g = none)
    (hs : SeenInv executed seen earlier) : SeenInv executed seen (earlier ++ [g]) := by
  intro k
  rw [hs k]
  constructor
  · rintro ⟨hne, g2, hg2, hk2⟩
    exact ⟨hne, g2, List.mem_append_left _ hg2, hk2⟩
  · rintro ⟨hne, g2, hg2, hk2⟩
    rcases List.mem_append.mp hg2 with hmem | hmem
    · exact ⟨hne, g2, hmem, hk2⟩
    · rw [List.mem_singleton.mp hmem, hkey] at hk2
      exact absurd hk2 (by simp)

lemma seenInv_append_dup (executed seen : Finset String) (earlier : List (Option RawGap))
    (g : Option RawGap) (k0 : String) (hkey : proposalKey g = some k0)
    (hk0 : k0 ∈ seen ∨ k0 ∈ executed) (hs : SeenInv executed seen earlier) :
    SeenInv executed seen (earlier ++ [g]) := by
  intro k
  constructor
  · intro hk
    obtain ⟨hne, g2, hg2, hk2⟩ := (hs k).mp hk
    exact ⟨hne, g2, List.mem_append_left _ hg2, hk2⟩
  · rintro ⟨hne, g2, hg2, hk2⟩
    rcases List.mem_append.mp hg2 with hmem | hmem
    · exact (hs k).mpr ⟨hne, g2, hmem, hk2⟩
    · rw [List.mem_singleton.mp hmem, hkey] at hk2
      have hkk : k = k0 := (Option.some.inj hk2).symm
      subst hkk
      rcases hk0 with hseen | hex
      · exact hseen
      · exact absurd hex hne

lemma seenInv_append_accept (executed seen : Finset String)
    (earlier : List (Option RawGap)) (g : Option RawGap) (k0 : String)
    (hkey : proposalKey g = some k0) (hk0ex : k0 ∉ executed)
    (hs : SeenInv executed seen earlier) :
    SeenInv executed (insert k0 seen) (earlier ++ [g]) := by
  intro k
  by_cases hkk : k = k0
  · subst hkk
    constructor
    · intro _
      exact ⟨hk0ex, g, List.mem_append_right _ (by simp), hkey⟩
    · intro _
      exact Finset.mem_insert.mpr (Or.inl rfl)
  · constructor
    · intro hk
      have hk' : k ∈ seen := by
        rcases Finset.mem_insert.mp hk with h | h
        · exact absurd h hkk
        · exact h
      obtain ⟨hne, g2, hg2, hkey2⟩ := (hs k).mp hk'
      exact ⟨hne, g2, List.mem_append_left _ hg2, hkey2⟩
    · rintro ⟨hne, g2, hg2, hkey2⟩
      rcases List.mem_append.mp hg2 with hmem | hmem
      · exact Finset.mem_insert.mpr (Or.inr ((hs k).mpr ⟨hne, g2, hmem, hkey2⟩))
      · rw [List.mem_singleton.mp hmem, hkey] at hkey2
        exact absurd (Option.some.inj hkey2).symm hkk

lemma ite_one_of_true {b : Bool} (h : b = true) : (if b = true then (1 : Nat) else 0) = 1 := by
  rw [h]
  decide

lemma ite_zero_of_false {b : Bool} (h : b = false) : (if b = true then (1 : Nat) else 0) = 0 := by
  rw [h]
  decide

lemma specDroppedB_eq_of_key_some (executed : Finset String)
    (earlier : List (Option RawGap)) (g : Option RawGap) (k : String)
    (h : proposalKey g = some k) :
    specDroppedB executed earlier g
      = (decide (k ∈ executed) || earlier.any fun g2 => decide (proposalKey g2 = some k)) := by
  unfold specDroppedB
  rw [h]

lemma gapFilterAux_spec (executed : Finset String) (proposed : List (Option RawGap)) :
    ∀ seen earlier, SeenInv executed seen earlier →
      (gapFilterAux executed seen proposed).length
          + specDroppedCountAux executed earlier proposed = proposed.length
      ∧ (∀ g ∈ gapFilterAux executed seen proposed,
          normalizeQueryKey g.query ∉ executed ∧ normalizeQueryKey g.query ∉ seen)
      ∧ ((gapFilterAux executed seen proposed).map
          (fun g => normalizeQueryKey g.query)).Nodup := by
  induction proposed with
  | nil =>
    intro seen earlier hs
    exact ⟨rfl, by simp [gapFilterAux], by simp [gapFilterAux]⟩
  | cons g rest ih =>
    intro seen earlier hs
    rcases g with _ | raw
    · have hdrop : specDroppedB executed earlier none = true := rfl
      obtain ⟨hlen, hfresh, hnd⟩ :=
        ih seen (earlier ++ [none]) (seenInv_append_none _ _ _ _ rfl hs)
      rw [gapFilterAux_cons_none, specDroppedCountAux_cons, ite_one_of_true hdrop]
      exact ⟨by simp only [List.length_cons]; omega, hfresh, hnd⟩
    · rw [gapFilterAux_cons_some, specDroppedCountAux_cons]
      by_cases hq : rawGapQuery raw = ""
      · have hkey : proposalKey (some raw) = none := by
          simp [proposalKey, hq]
        have hdrop : specDroppedB executed earlier (some raw) = true := by
          unfold specDroppedB
          rw [hkey]
        obtain ⟨hlen, hfresh, hnd⟩ :=
          ih seen (earlier ++ [some raw]) (seenInv_append_none _ _ _ _ hkey hs)
        rw [if_pos hq, ite_one_of_true hdrop]
        exact ⟨by simp only [List.length_cons]; omega, hfresh, hnd⟩
      · rw [if_neg hq]
        by_cases hinval : normalizeQueryKey (rawGapQuery raw) = ""
            ∨ normalizeQueryKey (rawGapQuery raw) ∈ seen
            ∨ normalizeQueryKey (rawGapQuery raw) ∈ executed
        · rw [if_pos hinval]
          by_cases hke : normalizeQueryKey (rawGapQuery raw) = ""
          · have hkey : proposalKey (some raw) = none := by
              simp [proposalKey, hq, hke]
            have hdrop : specDroppedB executed earlier (some raw) = true := by
              unfold specDroppedB
              rw [hkey]
            obtain ⟨hlen, hfresh, hnd⟩ :=
              ih seen (earlier ++ [some raw]) (seenInv_append_none _ _ _ _ hkey hs)
            rw [ite_one_of_true hdrop]
            exact ⟨by simp only [List.length_cons]; omega, hfresh, hnd⟩
          · have hkey : proposalKey (some raw) = some (normalizeQueryKey (rawGapQuery raw)) := by
              simp [proposalKey, hq, hke]
            have hk0 : normalizeQueryKey (rawGapQuery raw) ∈ seen
                ∨ normalizeQueryKey (rawGapQuery raw) ∈ executed := by
              rcases hinval with h | h | h
              · exact absurd h hke
              · exact Or.inl h
              · exact Or.inr h
            have hdrop : specDroppedB executed earlier (some raw) = true := by
              rw [specDroppedB_eq_of_key_some _ _ _ _ hkey]
              rcases hk0 with hks | hkex
              · obtain ⟨-, g2, hg2, hkey2⟩ := (hs _).mp hks
                have hany : (earlier.any fun g2 =>
                    decide (proposalKey g2
                      = some (normalizeQueryKey (rawGapQuery raw)))) = true :=
                  List.any_eq_true.mpr ⟨g2, hg2, by simp [hkey2]⟩
                rw [hany, Bool.or_true]
              · rw [decide_eq_true hkex, Bool.true_or]
            obtain ⟨hlen, hfresh, hnd⟩ :=
              ih seen (earlier ++ [some raw])
                (seenInv_append_dup _ _ _ _ _ hkey hk0 hs)
            rw [ite_one_of_true hdrop]
            exact ⟨by simp only [List.length_cons]; omega, hfresh, hnd⟩
        · rw [if_neg hinval]
          push_neg at hinval
          obtain ⟨hke, hkseen, hkex⟩ := hinval
          have hkey : proposalKey (some raw) = some (normalizeQueryKey (rawGapQuery raw)) := by
            simp [proposalKey, hq, hke]
          have hdrop : specDroppedB executed earlier (some raw) = false := by
            rw [specDroppedB_eq_of_key_some _ _ _ _ hkey]
            have h1 : decide (normalizeQueryKey (rawGapQuery raw) ∈ executed) = false :=
              decide_eq_false hkex
            have h2 : (earlier.any fun g2 =>
                decide (proposalKey g2
                  = some (normalizeQueryKey (rawGapQuery raw)))) = false := by
              rw [Bool.eq_false_iff]
              intro hany
              obtain ⟨g2, hg2, hkey2⟩ := List.any_eq_true.mp hany
              have hkey2' : proposalKey g2
                  = some (normalizeQueryKey (rawGapQuery raw)) := of_decide_eq_true hkey2
              exact hkseen ((hs _).mpr ⟨hkex, g2, hg2, hkey2'⟩)
            rw [h1, h2]
            rfl
          obtain ⟨hlen, hfresh, hnd⟩ :=
            ih (insert (normalizeQueryKey (rawGapQuery raw)) seen) (earlier ++ [some raw])
              (seenInv_append_accept _ _ _ _ _ hkey hkex hs)
          rw [ite_zero_of_false hdrop]
          refine ⟨by simp only [List.length_cons]; omega, ?_, ?_⟩
          · intro g2 hg2
            rcases List.mem_cons.mp hg2 with hh | hh
            · subst hh
              exact ⟨hkex, hkseen⟩
            · obtain ⟨hne, hnins⟩ := hfresh g2 hh
              refine ⟨hne, fun hc => hnins (Finset.mem_insert.mpr (Or.inr hc))⟩
          · rw [List.map_cons]
            rw [List.nodup_cons]
            refine ⟨?_, hnd⟩
            intro hmem
            obtain ⟨g2, hg2, hkey2⟩ := List.mem_map.mp hmem
            obtain ⟨-, hnins⟩ := hfresh g2 hg2
            exact hnins (hkey2 ▸ Finset.mem_insert.mpr (Or.inl rfl))

/-- The executed-query set as initialized from the first batch's reports
(`allReports.forEach(...)`): the non-empty normalized keys of every step's
`searchQuery`. -/
def initialExecuted (steps : List ResearchStep) : Finset String :=
  steps.foldl
    (fun s st =>
      let key := normalizeQueryKey st.searchQuery
      if key = "" then s else insert key s) ∅

/-- The result of one `evaluateResearchGaps` call: the model's `needsMore`
flag and the raw gap array (already sliced to `maxGaps` there). -/
structure GapEval where
  needsMore : Bool
  gaps : List (Option RawGap)

/-- One executed follow-up round as recorded for the proofs: the
executed-query set before and after the round, the round's proposals and
the accepted gaps. -/
structure RoundTrace where
  executedBefore : Finset String
  executedAfter : Finset String
  proposed : List (Option RawGap)
  accepted : List Gap
deriving DecidableEq

/-- The `while (additionalRounds < maxAdditionalRounds)` loop of
`runDeepReport`: evaluate (oracle), filter the gaps, break when the model
is satisfied or no gap survives, otherwise execute the round and continue
with the grown executed-query set. -/
def runGapRounds (oracle : Nat → GapEval) (maxGaps : Nat) :
    Nat → Nat → Finset String → List RoundTrace
  | _, 0, _ => []
  | r, fuel + 1, executed =>
    let e := oracle r
    let proposed := e.gaps.take maxGaps
    let res := gapRound executed proposed
    if e.needsMore = false ∨ res.1 = [] then []
    else
      { executedBefore := executed, executedAfter := res.2,
        proposed := proposed, accepted := res.1 }
        :: runGapRounds oracle maxGaps (r + 1) fuel res.2

/-- Adding one round's accepted keys to the executed set
(`gaps.forEach((gap) => executedQueries.add(normalizeQueryKey(gap.query)))`). -/
def roundStep (s : Finset String) (tr : RoundTrace) : Finset String :=
  tr.accepted.foldl (fun acc g => insert (normalizeQueryKey g.query) acc) s

lemma mem_foldl_insert_gaps (gaps : List Gap) (s : Finset String) (x : String)
    (hx : x ∈ s) :
    x ∈ gaps.foldl (fun acc g => insert (normalizeQueryKey g.query) acc) s := by
  induction gaps generalizing s with
  | nil => exact hx
  | cons g t ih => exact ih _ (Finset.mem_insert.mpr (Or.inr hx))

lemma key_mem_foldl_insert_gaps (gaps : List Gap) (s : Finset String) (g : Gap)
    (hg : g ∈ gaps) :
    normalizeQueryKey g.query
      ∈ gaps.foldl (fun acc g2 => insert (normalizeQueryKey g2.query) acc) s := by
  induction gaps generalizing s with
  | nil => exact absurd hg (List.not_mem_nil g)
  | cons g0 t ih =>
    rcases List.mem_cons.mp hg with h | h
    · subst h
      exact mem_foldl_insert_gaps t _ _ (Finset.mem_insert.mpr (Or.inl rfl))
    · exact ih _ h

lemma foldl_insert_gaps_card (gaps : List Gap) (s : Finset String)
    (hfresh : ∀ g ∈ gaps, normalizeQueryKey g.query ∉ s)
    (hnd : (gaps.map (fun g => normalizeQueryKey g.query)).Nodup) :
    (gaps.foldl (fun acc g => insert (normalizeQueryKey g.query) acc) s).card
      = s.card + gaps.length := by
  induction gaps generalizing s with
  | nil => rfl
  | cons g t ih =>
    have hgs : normalizeQueryKey g.query ∉ s := hfresh g (by simp)
    rw [List.map_cons, List.nodup_cons] at hnd
    have hfresh2 : ∀ g2 ∈ t, normalizeQueryKey g2.query ∉ insert (normalizeQueryKey g.query) s := by
      intro g2 hg2 hc
      rcases Finset.mem_insert.mp hc with h | h
      · exact hnd.1 (h ▸ List.mem_map.mpr ⟨g2, hg2, rfl⟩)
      · exact hfresh g2 (List.mem_cons.mpr (Or.inr hg2)) h
    have := ih (insert (normalizeQueryKey g.query) s) hfresh2 hnd.2
    show (t.foldl (fun acc g2 => insert (normalizeQueryKey g2.query) acc)
        (insert (normalizeQueryKey g.query) s)).card = s.card + (t.length + 1)
    rw [this, Finset.card_insert_of_not_mem hgs]
    omega

lemma mem_foldl_roundStep_of_mem (trs : List RoundTrace) (s : Finset String)
    (x : String) (hx : x ∈ s) : x ∈ trs.foldl roundStep s := by
  induction trs generalizing s with
  | nil => exact hx
  | cons tr t ih => exact ih _ (mem_foldl_insert_gaps _ _ _ hx)

lemma mem_foldl_roundStep_of_accepted (trs : List RoundTrace) (s : Finset String)
    (tr : RoundTrace) (g : Gap) (htr : tr ∈ trs) (hg : g ∈ tr.accepted) :
    normalizeQueryKey g.query ∈ trs.foldl roundStep s := by
  induction trs generalizing s with
  | nil => exact absurd htr (List.not_mem_nil tr)
  | cons tr0 t ih =>
    rcases List.mem_cons.mp htr with h | h
    · subst h
      exact mem_foldl_roundStep_of_mem t _ _ (key_mem_foldl_insert_gaps _ _ _ hg)
    · exact ih _ h

lemma mem_take_of_get {α : Type} (l : List α) (i j : Nat) (hij : i < j)
    (hi : i < l.length) : l.get ⟨i, hi⟩ ∈ l.take j := by
  induction l generalizing i j with
  | nil => simp at hi
  | cons a t ih =>
    cases i with
    | zero =>
      cases j with
      | zero => omega
      | succ j2 => exact List.mem_cons.mpr (Or.inl rfl)
    | succ i2 =>
      cases j with
      | zero => omega
      | succ j2 =>
        exact List.mem_cons.mpr (Or.inr (ih i2 j2 (by omega) (by simpa using hi)))

lemma runGapRounds_chain (oracle : Nat → GapEval) (maxGaps : Nat) :
    ∀ fuel r executed j t,
      (runGapRounds oracle maxGaps r fuel executed).get? j = some t →
      t.accepted = (gapRound t.executedBefore t.proposed).1
      ∧ t.executedAfter = (gapRound t.executedBefore t.proposed).2
      ∧ t.executedBefore
          = ((runGapRounds oracle maxGaps r fuel executed).take j).foldl
              roundStep executed := by
  intro fuel
  induction fuel with
  | zero =>
    intro r executed j t hget
    simp [runGapRounds] at hget
  | succ fuel ih =>
    intro r executed j t hget
    by_cases hbreak : (oracle r).needsMore = false
        ∨ (gapRound executed ((oracle r).gaps.take maxGaps)).1 = []
    · have hnil : runGapRounds oracle maxGaps r (fuel + 1) executed = [] := by
        simp only [runGapRounds]
        rw [if_pos hbreak]
      rw [hnil] at hget
      simp at hget
    · have hunfold : runGapRounds oracle maxGaps r (fuel + 1) executed
          = { executedBefore := executed,
              executedAfter := (gapRound executed ((oracle r).gaps.take maxGaps)).2,
              proposed := (oracle r).gaps.take maxGaps,
              accepted := (gapRound executed ((oracle r).gaps.take maxGaps)).1 }
            :: runGapRounds oracle maxGaps (r + 1) fuel
                (gapRound executed ((oracle r).gaps.take maxGaps)).2 := by
        simp only [runGapRounds]
        rw [if_neg hbreak]
      rw [hunfold] at hget
      cases j with
      | zero =>
        rw [List.get?_cons_zero] at hget
        have ht := (Option.some.inj hget).symm
        subst ht
        exact ⟨rfl, rfl, rfl⟩
      | succ j2 =>
        rw [List.get?_cons_succ] at hget
        have hget2 : (runGapRounds oracle maxGaps (r + 1) fuel
            (gapRound executed ((oracle r).gaps.take maxGaps)).2).get? j2 = some t := hget
        obtain ⟨h1, h2, h3⟩ := ih (r + 1)
          (gapRound executed ((oracle r).gaps.take maxGaps)).2 j2 t hget2
        refine ⟨h1, h2, ?_⟩
        rw [hunfold, List.take_succ_cons, List.foldl_cons, h3]
        rfl

/-- **C3**.  In every run of the gap-analysis follow-up loop and every round
`j` of it (with the executed-query set seeded from the initial plan steps'
search queries): no accepted gap's normalized query was already in the
executed set; in particular none equals an initial step's query key or any
gap key accepted in an earlier round; within a round the accepted keys are
pairwise distinct; the number of accepted gaps plus the number of proposals
that are empty/invalid or duplicate an already-executed or
earlier-in-round query equals the number of proposals; and the executed set
grows by exactly the number of accepted gaps. -/
theorem gapLoop_dedup (oracle : Nat → GapEval) (maxGaps fuel : Nat)
    (planSteps : List ResearchStep) (j : Nat) (t : RoundTrace)
    (hget : (runGapRounds oracle maxGaps 0 fuel (initialExecuted planSteps)).get? j
      = some t) :
    (∀ g ∈ t.accepted, normalizeQueryKey g.query ∉ t.executedBefore)
    ∧ (∀ g ∈ t.accepted, normalizeQueryKey g.query ∉ initialExecuted planSteps)
    ∧ (∀ g ∈ t.accepted, ∀ i t2, i < j →
        (runGapRounds oracle maxGaps 0 fuel (initialExecuted planSteps)).get? i
          = some t2 →
        normalizeQueryKey g.query
          ∉ t2.accepted.map (fun g2 => normalizeQueryKey g2.query))
    ∧ (t.accepted.map (fun g => normalizeQueryKey g.query)).Nodup
    ∧ t.accepted.length + specDroppedCount t.executedBefore t.proposed
        = t.proposed.length
    ∧ t.executedAfter.card = t.executedBefore.card + t.accepted.length := by
  obtain ⟨hacc, hafter, hbefore⟩ :=
    runGapRounds_chain oracle maxGaps fuel 0 (initialExecuted planSteps) j t hget
  obtain ⟨hlen, hfresh, hnd⟩ :=
    gapFilterAux_spec t.executedBefore t.proposed ∅ [] (seenInv_nil _)
  have haccF : t.accepted = gapFilterAux t.executedBefore ∅ t.proposed := hacc
  have hfreshB : ∀ g ∈ t.accepted, normalizeQueryKey g.query ∉ t.executedBefore := by
    intro g hg
    exact (hfresh g (haccF ▸ hg)).1
  refine ⟨hfreshB, ?_, ?_, ?_, ?_, ?_⟩
  · intro g hg hc
    exact hfreshB g hg (hbefore ▸ mem_foldl_roundStep_of_mem _ _ _ hc)
  · intro g hg i t2 hij hget2 hc
    obtain ⟨g2, hg2, hkey2⟩ := List.mem_map.mp hc
    have ht2mem : t2 ∈ (runGapRounds oracle maxGaps 0 fuel
        (initialExecuted planSteps)).take j := by
      have := List.get?_take hij
          (l := runGapRounds oracle maxGaps 0 fuel (initialExecuted planSteps))
      rw [hget2] at this
      exact List.get?_mem this
    have : normalizeQueryKey g.query ∈ t.executedBefore := by
      rw [hbefore, ← hkey2]
      exact mem_foldl_roundStep_of_accepted _ _ _ _ ht2mem hg2
    exact hfreshB g hg this
  · exact haccF ▸ hnd
  · rw [haccF]
    exact hlen
  · rw [hafter]
    have hafter2 : (gapRound t.executedBefore t.proposed).2
        = t.accepted.foldl
            (fun acc g => insert (normalizeQueryKey g.query) acc) t.executedBefore := by
      rw [haccF]
      rfl
    rw [hafter2]
    exact foldl_insert_gaps_card _ _ hfreshB (haccF ▸ hnd)

/-! ### Gap-to-step conversion (`runDeepReport`, `gapSteps`)

`gaps.map((gap, i) => ({ id: plan.steps.length + i + 1, ... }))` builds the
follow-up batch; `plan.steps` itself is never mutated. -/

def gapStepsOf (planLen : Nat) (gaps : List Gap) : List ResearchStep :=
  gaps.enum.map fun p =>
    { id := planLen + p.1 + 1, question := p.2.question,
      searchQuery := p.2.query, purpose := p.2.purpose, status := .pending }

/-- **C7** (amended).  Each surviving gap of a round becomes exactly one new
`ResearchStep`; within a single round the new steps carry the consecutive
ids `planLen + 1, …, planLen + k`, which are pairwise distinct and all
greater than `planLen`.  (The steps are *not* appended to the plan's step
list, and because every round restarts from the unchanged `plan.steps.length`,
ids repeat across rounds — see the counterexample.) -/
theorem gapSteps_round_ids (planLen : Nat) (gaps : List Gap) :
    ((gapStepsOf planLen gaps).map (fun st => st.id)
        = (List.range gaps.length).map (fun i => planLen + i + 1))
    ∧ ((gapStepsOf planLen gaps).map (fun st => st.id)).Nodup
    ∧ (∀ st ∈ gapStepsOf planLen gaps, planLen < st.id)
    ∧ (gapStepsOf planLen gaps).length = gaps.length := by
  have hmap : (gapStepsOf planLen gaps).map (fun st => st.id)
      = (List.range gaps.length).map (fun i => planLen + i + 1) := by
    unfold gapStepsOf
    rw [List.map_map, ← List.enum_map_fst gaps, List.map_map]
    rfl
  refine ⟨hmap, ?_, ?_, ?_⟩
  · rw [hmap]
    refine List.Nodup.map ?_ (List.nodup_range _)
    intro a b hab
    have hab2 : planLen + a + 1 = planLen + b + 1 := hab
    omega
  · intro st hst
    have : st.id ∈ (gapStepsOf planLen gaps).map (fun st => st.id) :=
      List.mem_map.mpr ⟨st, hst, rfl⟩
    rw [hmap] at this
    obtain ⟨i, -, hi⟩ := List.mem_map.mp this
    omega
  · unfold gapStepsOf
    rw [List.length_map, List.enum_length]

def cexPlanSteps : List ResearchStep :=
  [{ id := 1, question := "q1", searchQuery := "alpha", purpose := "", status := .pending },
   { id := 2, question := "q2", searchQuery := "beta", purpose := "", status := .pending }]

def cexRawGap (q : String) : Option RawGap :=
  some { question := none, query := some q, searchQuery := none, purpose := none }

def cexGapOracle : Nat → GapEval
  | 0 => { needsMore := true, gaps := [cexRawGap "gamma"] }
  | 1 => { needsMore := true, gaps := [cexRawGap "delta"] }
  | _ => { needsMore := false, gaps := [] }

/-- **C7** counterexample: with a 2-step plan and two follow-up rounds that
each accept one fresh gap, both rounds create a step with id
`plan.steps.length + 1 = 3` (the plan's step list is never extended, so the
id base never moves): the ids of the plan steps together with all created
follow-up steps are not unique. -/
theorem gapSteps_ids_repeat_across_rounds :
    ¬ ((cexPlanSteps.map (fun st => st.id))
        ++ ((runGapRounds cexGapOracle 5 0 3 (initialExecuted cexPlanSteps)).map
              (fun t => (gapStepsOf cexPlanSteps.length t.accepted).map
                (fun st => st.id))).flatten).Nodup := by
  decide

/-! ### The sub-research agent (`SubResearchAgent.research`)

The search-round loop, URL-keyed merging, score sort, insight extraction,
sub-topic filtering and bounded recursion of `research` are embedded below.
Model/search/expansion responses are oracles indexed by the position of the
invocation in the recursion tree (`path`) and the round number.  JS `Map`
iteration order is insertion order, modelled by an association list; the JS
stable `Array.sort` is modelled by a stable insertion sort (stable sorts
agree on every consistent comparator). -/

abbrev UrlMap := List (String × ExaSearchResult)

def mapFind? (m : UrlMap) (k : String) : Option ExaSearchResult :=
  (m.find? (fun p => p.1 = k)).map (fun p => p.2)

/-- `Map.set` on an existing key keeps the entry's insertion position. -/
def mapSet (m : UrlMap) (k : String) (v : ExaSearchResult) : UrlMap :=
  if m.any (fun p => p.1 = k) then
    m.map (fun p => if p.1 = k then (k, v) else p)
  else m ++ [(k, v)]

/-- `mergeResult` (`sub-agent.ts` lines 194-212): skip empty trimmed URLs,
insert unknown URLs as-is, merge known URLs with `mergeRecord`. -/
def mergeResultStep (m : UrlMap) (next : ExaSearchResult) : UrlMap :=
  let url := jsTrim next.url
  if url = "" then m
  else
    match mapFind? m url with
    | none => m ++ [(url, next)]
    | some existing => mapSet m url (mergeRecord existing next)

structure AgentConfig where
  maxSearchRounds : Nat
  expandSources : Bool
  maxExpandedUrls : Nat
deriving Repr

/-- The derived child configuration: fewer rounds for the child
(`maxSearchRounds: Math.max(1, this.maxSearchRounds - 1)`), same depth cap. -/
def childConfig (cfg : AgentConfig) : AgentConfig :=
  { cfg with maxSearchRounds := max 1 (cfg.maxSearchRounds - 1) }

structure RawSubTopic where
  question : Option String
  searchQuery : Option String
  reason : Option String
deriving DecidableEq, Repr

structure SubTopic where
  question : String
  searchQuery : String
  reason : String
deriving DecidableEq, Repr

structure ResearchOracle where
  searchResults : List Nat → Nat → List ExaSearchResult
  followUpQuery : List Nat → Nat → Option String
  expansion : List Nat → List ExaSearchResult
  summary : List Nat → String
  subTopics : List Nat → List RawSubTopic
  childFails : List Nat → Bool

/-- The search-round loop of `research` (lines 214-249): `round` is the
1-based round number; `rem + round = maxSearchRounds + 1`, so `rem = 0`
is the `round >= maxSearchRounds` break and running out of `rem`
altogether is the `for` guard `round <= maxSearchRounds`. -/
def searchGo (o : ResearchOracle) (path : List Nat) :
    Nat → Nat → String → Finset String → UrlMap → UrlMap
  | _, 0, _, _, m => m
  | round, rem + 1, q, used, m =>
    let key := normalizeQueryKey q
    if key = "" ∨ key ∈ used then m
    else
      let used2 := insert key used
      let m2 := (o.searchResults path round).foldl mergeResultStep m
      if rem = 0 then m2
      else
        match o.followUpQuery path round with
        | none => m2
        | some nq =>
          if nq = "" then m2
          else
            let nk := normalizeQueryKey nq
            if nk = "" ∨ nk ∈ used2 then m2
            else searchGo o path (round + 1) rem nq used2 m2

def searchLoopMap (o : ResearchOracle) (path : List Nat) (maxRounds : Nat)
    (step : ResearchStep) : UrlMap :=
  searchGo o path 1 maxRounds (jsOrStr step.searchQuery step.question) ∅ []

/-- `sort((a, b) => (b.score ?? 0) - (a.score ?? 0))` — stable, descending. -/
def sortByScore (l : List ExaSearchResult) : List ExaSearchResult :=
  List.insertionSort (fun a b => optScore b.score ≤ optScore a.score) l

/-- The lazily captured `## Key Findings` section:
`/## Key Findings\n([\s\S]*?)(?=\n## |$)/`. -/
def keyFindingsSection (summary : String) : Option String :=
  match strSplitOn summary "## Key Findings\n" with
  | [] => none
  | [_] => none
  | _ :: rest =>
    let after := String.intercalate "## Key Findings\n" rest
    some ((strSplitOn after "\n## ").headD after)

/-- `extractKeyInsights`: the `^- .+$` bullets of the Key Findings section,
stripped of the bullet marker, trimmed, capped at 5. -/
def extractKeyInsights (summary : String) : List String :=
  match keyFindingsSection summary with
  | none => []
  | some sec =>
    ((((strSplitOn sec "\n").filter
        (fun l => "- ".data.isPrefixOf l.data && 2 < l.length))).map
      (fun l => jsTrim (String.mk (l.data.drop 2)))).take 5

/-- `identifySubTopics`: empty at or beyond the depth cap, otherwise the
proposals with a non-empty trimmed question, capped at 2, normalized. -/
def acceptedSubTopics (o : ResearchOracle) (path : List Nat) (depth maxD : Nat) :
    List SubTopic :=
  if maxD ≤ depth then []
  else
    (((o.subTopics path).filter fun t =>
        match t.question with
        | some q => jsTrim q ≠ ""
        | none => false).take 2).map fun t =>
      let q := jsTrim (t.question.getD "")
      { question := q,
        searchQuery := jsOrStr (jsTrim (t.searchQuery.getD "")) q,
        reason := jsOrStr (jsTrim (t.reason.getD "")) "Needs deeper research" }

structure RunResult where
  report : SubAgentReport
  invocations : List Nat
deriving DecidableEq, Repr

/-- `childStep`: `id: step.id * 100 + subTopics.indexOf(subTopic) + 1`. -/
def childStepOf (step : ResearchStep) (topics : List SubTopic) (st : SubTopic) :
    ResearchStep :=
  { id := step.id * 100 + topics.indexOf st + 1,
    question := st.question, searchQuery := st.searchQuery,
    purpose := st.reason, status := .pending }

/-- The part of `research` common to recursive and non-recursive runs:
search rounds, merge, sort, optional expansion, analysis summary (oracle)
and insight extraction. -/
def researchBase (o : ResearchOracle) (cfg : AgentConfig) (depth : Nat)
    (step : ResearchStep) (path : List Nat) : RunResult :=
  let m := searchLoopMap o path cfg.maxSearchRounds step
  let searchResults := sortByScore (m.map (fun p => p.2))
  let expandedSources :=
    if cfg.expandSources ∧ 0 < cfg.maxExpandedUrls ∧ searchResults ≠ []
      then o.expansion path else []
  let summary0 := o.summary path
  { report :=
      { step := step, summary := summary0, sources := searchResults,
        expandedSources := if expandedSources = [] then none else some expandedSources,
        keyInsights := (extractKeyInsights summary0).take 10 },
    invocations := [depth] }

/-- `SubResearchAgent.research`, recursion made structural on a `gas`
parameter.  The wrapper `researchModel` below instantiates
`gas = maxD - depth`, so whenever `depth < maxD` (the only situation in
which the source recurses) `gas` is positive and the `gas = 0` clause is
never reached with `depth < maxD`. -/
def researchGo (o : ResearchOracle) :
    Nat → AgentConfig → Nat → Nat → ResearchStep → List Nat → RunResult
  | 0, cfg, depth, _, step, path => researchBase o cfg depth step path
  | gas + 1, cfg, depth, maxD, step, path =>
    if depth < maxD then
      let m := searchLoopMap o path cfg.maxSearchRounds step
      let searchResults := sortByScore (m.map (fun p => p.2))
      let expandedSources :=
        if cfg.expandSources ∧ 0 < cfg.maxExpandedUrls ∧ searchResults ≠ []
          then o.expansion path else []
      let summary0 := o.summary path
      let insights0 := extractKeyInsights summary0
      let topics := acceptedSubTopics o path depth maxD
      let children := topics.enum.map fun p =>
        (p.1, p.2, researchGo o gas (childConfig cfg) (depth + 1) maxD
          (childStepOf step topics p.2) (path ++ [p.1]))
      let contrib := children.filter fun c => !(o.childFails (path ++ [c.1]))
      let summary := contrib.foldl
        (fun s c => s ++ "\n\n---\n\n### Sub-Research: " ++ c.2.1.question
          ++ "\n\n" ++ c.2.2.report.summary) summary0
      let keyInsights :=
        insights0 ++ (contrib.map fun c => c.2.2.report.keyInsights).flatten
      let sources :=
        searchResults ++ (contrib.map fun c => c.2.2.report.sources).flatten
      { report :=
          { step := step, summary := summary, sources := sources,
            expandedSources :=
              if expandedSources = [] then none else some expandedSources,
            keyInsights := keyInsights.take 10 },
        invocations := depth :: (children.map fun c => c.2.2.invocations).flatten }
    else researchBase o cfg depth step path

/-- `SubResearchAgent.research` at depth `depth` with cap `maxD`. -/
def researchModel (o : ResearchOracle) (cfg : AgentConfig) (depth maxD : Nat)
    (step : ResearchStep) (path : List Nat) : RunResult :=
  researchGo o (maxD - depth) cfg depth maxD step path

lemma researchGo_inv_le (o : ResearchOracle) :
    ∀ gas cfg depth maxD step path, depth ≤ maxD →
      ∀ d ∈ (researchGo o gas cfg depth maxD step path).invocations, d ≤ maxD := by
  intro gas
  induction gas with
  | zero =>
    intro cfg depth maxD step path hle d hd
    simp only [researchGo, researchBase] at hd
    rw [List.mem_singleton.mp hd]
    exact hle
  | succ gas ih =>
    intro cfg depth maxD step path hle d hd
    by_cases hlt : depth < maxD
    · simp only [researchGo, dif_pos hlt, if_pos hlt] at hd
      rcases List.mem_cons.mp hd with h | h
      · omega
      · obtain ⟨l, hl, hdl⟩ := List.mem_flatten.mp h
        obtain ⟨c, hc, hcl⟩ := List.mem_map.mp hl
        obtain ⟨p, -, hp⟩ := List.mem_map.mp hc
        rw [← hp] at hcl
        rw [← hcl] at hdl
        exact ih (childConfig cfg) (depth + 1) maxD _ _ (by omega) d hdl
    · simp only [researchGo, if_neg hlt, researchBase] at hd
      rw [List.mem_singleton.mp hd]
      exact hle

/-- **C4**.  No `SubResearchAgent.research` invocation ever occurs at a
depth above the configured `maxRecursionDepth` (children are spawned only
when `depth < maxD`, at `depth + 1` with the same `maxD`), and an agent at
depth 0 with `maxRecursionDepth = 0` performs no recursive child research
at all: its only invocation is itself, at depth 0. -/
theorem research_depth_bounded (o : ResearchOracle) (cfg : AgentConfig)
    (step : ResearchStep) (path : List Nat) :
    (∀ depth maxD, depth ≤ maxD →
      ∀ d ∈ (researchModel o cfg depth maxD step path).invocations, d ≤ maxD)
    ∧ (researchModel o cfg 0 0 step path).invocations = [0] := by
  constructor
  · intro depth maxD hle d hd
    exact researchGo_inv_le o (maxD - depth) cfg depth maxD step path hle d hd
  · rfl

/-- The well-formedness of the URL-keyed map: keys are distinct and every
entry is stored under its record's trimmed URL. -/
def UrlMapInv (m : UrlMap) : Prop :=
  (m.map (fun p => p.1)).Nodup ∧ ∀ p ∈ m, jsTrim p.2.url = p.1

lemma urlMapInv_nil : UrlMapInv [] := ⟨List.nodup_nil, by simp⟩

lemma mergeRecord_url (existing next : ExaSearchResult) :
    (mergeRecord existing next).url = next.url := rfl

lemma mapSet_inv (m : UrlMap) (k : String) (v : ExaSearchResult)
    (hv : jsTrim v.url = k) (hm : UrlMapInv m) : UrlMapInv (mapSet m k v) := by
  unfold mapSet
  split_ifs with hany
  · constructor
    · have : (m.map (fun p => if p.1 = k then (k, v) else p)).map (fun p => p.1)
          = m.map (fun p => p.1) := by
        rw [List.map_map]
        apply List.map_congr_left
        intro p hp
        by_cases hpk : p.1 = k
        · simp [hpk]
        · simp [hpk]
      rw [this]
      exact hm.1
    · intro p hp
      obtain ⟨q, hq, hqp⟩ := List.mem_map.mp hp
      by_cases hqk : q.1 = k
      · rw [if_pos hqk] at hqp
        rw [← hqp]
        exact hv
      · rw [if_neg hqk] at hqp
        rw [← hqp]
        exact hm.2 q hq
  · constructor
    · rw [List.map_append]
      rw [List.nodup_append]
      refine ⟨hm.1, by simp, ?_⟩
      intro x hx hx2
      simp only [List.map_cons, List.map_nil, List.mem_singleton] at hx2
      obtain ⟨p, hp, hpx⟩ := List.mem_map.mp hx
      apply hany
      rw [List.any_eq_true]
      exact ⟨p, hp, by rw [hpx, hx2]; simp⟩
    · intro p hp
      rcases List.mem_append.mp hp with hmem | hmem
      · exact hm.2 p hmem
      · rw [List.mem_singleton.mp hmem]
        exact hv

lemma mergeResultStep_inv (m : UrlMap) (next : ExaSearchResult)
    (hm : UrlMapInv m) : UrlMapInv (mergeResultStep m next) := by
  show UrlMapInv
    (if jsTrim next.url = "" then m
     else
       match mapFind? m (jsTrim next.url) with
       | none => m ++ [(jsTrim next.url, next)]
       | some existing => mapSet m (jsTrim next.url) (mergeRecord existing next))
  by_cases hurl : jsTrim next.url = ""
  · rw [if_pos hurl]
    exact hm
  · rw [if_neg hurl]
    rcases hfind : mapFind? m (jsTrim next.url) with _ | existing
    · refine ⟨?_, ?_⟩
      · rw [List.map_append, List.nodup_append]
        refine ⟨hm.1, by simp, ?_⟩
        intro x hx hx2
        simp only [List.map_cons, List.map_nil, List.mem_singleton] at hx2
        obtain ⟨p, hp, hpx⟩ := List.mem_map.mp hx
        unfold mapFind? at hfind
        rw [Option.map_eq_none', List.find?_eq_none] at hfind
        exact hfind p hp (by rw [hpx, hx2]; simp)
      · intro p hp
        rcases List.mem_append.mp hp with hmem | hmem
        · exact hm.2 p hmem
        · rw [List.mem_singleton.mp hmem]
    · exact mapSet_inv m _ _ (by rw [mergeRecord_url]) hm

lemma foldl_mergeResultStep_inv (l : List ExaSearchResult) (m : UrlMap)
    (hm : UrlMapInv m) : UrlMapInv (l.foldl mergeResultStep m) := by
  induction l generalizing m with
  | nil => exact hm
  | cons a t ih => exact ih _ (mergeResultStep_inv m a hm)

lemma searchGo_inv (o : ResearchOracle) (path : List Nat) :
    ∀ rem round q used m, UrlMapInv m →
      UrlMapInv (searchGo o path round rem q used m) := by
  intro rem
  induction rem with
  | zero =>
    intro round q used m hm
    exact hm
  | succ rem ih =>
    intro round q used m hm
    show UrlMapInv
      (if normalizeQueryKey q = "" ∨ normalizeQueryKey q ∈ used then m
       else
         if rem = 0 then (o.searchResults path round).foldl mergeResultStep m
         else
           match o.followUpQuery path round with
           | none => (o.searchResults path round).foldl mergeResultStep m
           | some nq =>
             if nq = "" then (o.searchResults path round).foldl mergeResultStep m
             else
               if normalizeQueryKey nq = ""
                   ∨ normalizeQueryKey nq ∈ insert (normalizeQueryKey q) used then
                 (o.searchResults path round).foldl mergeResultStep m
               else
                 searchGo o path (round + 1) rem nq
                   (insert (normalizeQueryKey q) used)
                   ((o.searchResults path round).foldl mergeResultStep m))
    by_cases h1 : normalizeQueryKey q = "" ∨ normalizeQueryKey q ∈ used
    · rw [if_pos h1]
      exact hm
    · rw [if_neg h1]
      by_cases h2 : rem = 0
      · rw [if_pos h2]
        exact foldl_mergeResultStep_inv _ _ hm
      · rw [if_neg h2]
        rcases o.followUpQuery path round with _ | nq
        · exact foldl_mergeResultStep_inv _ _ hm
        · show UrlMapInv
            (if nq = "" then (o.searchResults path round).foldl mergeResultStep m
             else
               if normalizeQueryKey nq = ""
                   ∨ normalizeQueryKey nq ∈ insert (normalizeQueryKey q) used then
                 (o.searchResults path round).foldl mergeResultStep m
               else
                 searchGo o path (round + 1) rem nq
                   (insert (normalizeQueryKey q) used)
                   ((o.searchResults path round).foldl mergeResultStep m))
          by_cases h3 : nq = ""
          · rw [if_pos h3]
            exact foldl_mergeResultStep_inv _ _ hm
          · rw [if_neg h3]
            by_cases h4 : normalizeQueryKey nq = ""
                ∨ normalizeQueryKey nq ∈ insert (normalizeQueryKey q) used
            · rw [if_pos h4]
              exact foldl_mergeResultStep_inv _ _ hm
            · rw [if_neg h4]
              exact ih _ _ _ _ (foldl_mergeResultStep_inv _ _ hm)

lemma urlMapInv_values_urls_nodup (m : UrlMap) (hm : UrlMapInv m) :
    ((m.map (fun p => p.2)).map (fun s => s.url)).Nodup := by
  have hkeys : m.map (fun p => p.1)
      = ((m.map (fun p => p.2)).map (fun s => s.url)).map jsTrim := by
    rw [List.map_map, List.map_map]
    apply List.map_congr_left
    intro p hp
    exact (hm.2 p hp).symm
  have := hm.1
  rw [hkeys] at this
  exact this.of_map jsTrim

/-- **C6** (amended).  The sub-agent's *own* merged search results are
deduplicated by URL: whenever `research` performs no recursive sub-topic
research (in particular whenever `depth ≥ maxRecursionDepth`), the returned
report's `sources` list has at most one record per URL.  When recursive
children contribute, their sources are appended without re-merging and the
list may repeat URLs — see the counterexample. -/
theorem research_sources_nodup_without_recursion (o : ResearchOracle)
    (cfg : AgentConfig) (depth maxD : Nat) (step : ResearchStep) (path : List Nat)
    (h : maxD ≤ depth) :
    (((researchModel o cfg depth maxD step path).report.sources).map
      (fun s => s.url)).Nodup := by
  have hnodup := urlMapInv_values_urls_nodup
    (searchLoopMap o path cfg.maxSearchRounds step)
    (searchGo_inv o path cfg.maxSearchRounds 1 _ ∅ [] urlMapInv_nil)
  have hsorted : (researchModel o cfg depth maxD step path).report.sources
      = sortByScore ((searchLoopMap o path cfg.maxSearchRounds step).map
          (fun p => p.2)) := by
    unfold researchModel
    rcases hgas : maxD - depth with _ | gas
    · rfl
    · have : depth < maxD := by omega
      omega
  rw [hsorted]
  have hperm : (sortByScore ((searchLoopMap o path cfg.maxSearchRounds step).map
      (fun p => p.2))).Perm
      ((searchLoopMap o path cfg.maxSearchRounds step).map (fun p => p.2)) :=
    List.perm_insertionSort _ _
  exact ((hperm.map (fun s => s.url)).nodup_iff).mpr hnodup

def dupSource : ExaSearchResult :=
  { id := "s", url := "https://dup.example", title := "t", score := some 1,
    publishedDate := none, author := none, text := some "x",
    highlights := none, summary := none }

def dupOracle : ResearchOracle :=
  { searchResults := fun _ _ => [dupSource],
    followUpQuery := fun _ _ => none,
    expansion := fun _ => [],
    summary := fun _ => "",
    subTopics := fun path =>
      if path = [] then [{ question := some "sub", searchQuery := none, reason := none }]
      else [],
    childFails := fun _ => false }

def dupCfg : AgentConfig :=
  { maxSearchRounds := 1, expandSources := false, maxExpandedUrls := 0 }

def dupStep : ResearchStep :=
  { id := 1, question := "root", searchQuery := "rootq", purpose := "", status := .pending }

/-- **C6** counterexample: a depth-0 agent with `maxRecursionDepth = 1`
whose single search and whose child's single search both return the same
URL ends up with that URL twice in `sources` — `searchResults.push(...
childReport.sources)` appends child sources without URL deduplication. -/
theorem research_sources_dup_with_recursion :
    ¬ (((researchModel dupOracle dupCfg 0 1 dupStep []).report.sources).map
        (fun s => s.url)).Nodup := by
  decide

/-! ### JSON values and the planner's defensive parsing
(`research/planner.ts`, `parsePlanResponse`)

`JSON.parse` and the regex-based syntax repair are platform primitives and
enter as oracles (`jsonParse`, `repair`); the fence stripping, the greedy
`/\{[\s\S]*\}/` span extraction, the strategy loop and the final `throw
new Error(...)` are embedded.  The `PlanningError` class of `errors.ts` is
embedded as `mkPlanningError` — note that the planner never throws it. -/

inductive Json where
  | null
  | bool (b : Bool)
  | num (q : ℚ)
  | str (s : String)
  | arr (elems : List Json)
  | obj (fields : List (String × Json))

def Json.getField : Json → String → Option Json
  | .obj fields, name => (fields.find? (fun p => p.1 = name)).map (fun p => p.2)
  | _, _ => none

/-- Property access with absent modelled as `null`
(`undefined` and `null` behave identically in the expressions used). -/
def Json.fieldOr (j : Json) (name : String) : Json :=
  (j.getField name).getD Json.null

def jsTruthy : Json → Bool
  | .null => false
  | .bool b => b
  | .num q => q ≠ 0
  | .str s => s ≠ ""
  | .arr _ => true
  | .obj _ => true

/-- JS `a || b` on arbitrary values. -/
def jsOrJson (v d : Json) : Json := if jsTruthy v then v else d

/-- JS `a ?? b`. -/
def jsNullishOr : Json → Json → Json
  | .null, d => d
  | v, _ => v

/-- The greedy `/\{[\s\S]*\}/` match: from the first `{` to the last `}`. -/
def braceSpan (s : String) : Option String :=
  match s.data.findIdx? (fun c => c = '{'), s.data.reverse.findIdx? (fun c => c = '}') with
  | some i, some rj =>
    let j := s.data.length - 1 - rj
    if i < j then some (String.mk ((s.data.drop i).take (j - i + 1))) else none
  | _, _ => none

/-- One plan step after parsing: raw JSON values with the runtime defaults
of `parsePlanResponse` applied (`id: step.id ?? index + 1`, etc.). -/
structure ParsedStep where
  id : Json
  question : Json
  searchQuery : Json
  purpose : Json
  status : String

structure ParsedPlan where
  mainQuestion : Json
  steps : List ParsedStep
  expectedInsights : Json

def mkParsedStep (p : Nat × Json) : ParsedStep where
  id := jsNullishOr (p.2.fieldOr "id") (Json.num (p.1 + 1))
  question := jsOrJson (p.2.fieldOr "question") (Json.str ("Step " ++ toString (p.1 + 1)))
  searchQuery := jsOrJson (p.2.fieldOr "searchQuery")
    (jsOrJson (p.2.fieldOr "question") (Json.str ""))
  purpose := jsOrJson (p.2.fieldOr "purpose") (Json.str "")
  status := "pending"

/-- The shape check and step mapping of one strategy's parsed value:
`none` mirrors `if (!parsed.steps || !Array.isArray(parsed.steps)) continue`. -/
def planFromJson (parsed : Json) : Option ParsedPlan :=
  match parsed.getField "steps" with
  | some (Json.arr steps) =>
    some { mainQuestion := jsOrJson (parsed.fieldOr "mainQuestion") (Json.str "Research query"),
           steps := steps.enum.map mkParsedStep,
           expectedInsights := jsOrJson (parsed.fieldOr "expectedInsights") (Json.arr []) }
  | _ => none

/-- Markdown code-fence stripping and trimming of the raw model output. -/
def cleanContent (content : String) : String :=
  let c0 := jsTrim content
  let c1 :=
    if "```json".data.isPrefixOf c0.data then String.mk (c0.data.drop 7)
    else if "```".data.isPrefixOf c0.data then String.mk (c0.data.drop 3)
    else c0
  let c2 :=
    if "```".data.reverse.isPrefixOf c1.data.reverse then
      String.mk (c1.data.take (c1.data.length - 3))
    else c1
  jsTrim c2

/-- A thrown JS error object: its `name` and `message`. -/
structure JsErrorObj where
  name : String
  message : String
deriving DecidableEq, Repr

/-- `new PlanningError(message)` from `errors.ts`: `name` is
`'PlanningError'`. -/
def mkPlanningError (message : String) : JsErrorObj :=
  { name := "PlanningError", message := message }

/-- The three parse strategies in order: direct parse, `{...}` span
extraction, repair-then-extract. -/
def planStrategies (jsonParse : String → Except String Json) (repair : String → String)
    (clean : String) : List (Except String Json) :=
  [jsonParse clean,
   match braceSpan clean with
   | none => Except.error "No JSON object found"
   | some m => jsonParse m,
   match braceSpan (repair clean) with
   | none => Except.error "No JSON object found after fixes"
   | some m => jsonParse m]

/-- The `for (const strategy of parseStrategies)` loop with its `lastError`
accumulator and the final `throw new Error(...)` — a plain `Error`, not a
`PlanningError`. -/
def planLoop (clean : String) :
    List (Except String Json) → Option String → Except JsErrorObj ParsedPlan
  | [], lastErr =>
    Except.error
      { name := "Error",
        message := "Failed to parse research plan: " ++ lastErr.getD "undefined"
          ++ "\n\nRaw content:\n" ++ strTake clean 500 }
  | s :: rest, lastErr =>
    match s with
    | .error e => planLoop clean rest (some e)
    | .ok parsed =>
      match planFromJson parsed with
      | some plan => Except.ok plan
      | none => planLoop clean rest lastErr

def parsePlanResponse (jsonParse : String → Except String Json)
    (repair : String → String) (content : String) : Except JsErrorObj ParsedPlan :=
  planLoop (cleanContent content) (planStrategies jsonParse repair (cleanContent content))
    none

lemma planLoop_total (clean : String) :
    ∀ (ss : List (Except String Json)) (lastErr : Option String),
      (∃ plan, planLoop clean ss lastErr = Except.ok plan)
      ∨ (∃ le, planLoop clean ss lastErr
          = Except.error
              { name := "Error",
                message := "Failed to parse research plan: " ++ le
                  ++ "\n\nRaw content:\n" ++ strTake clean 500 }) := by
  intro ss
  induction ss with
  | nil =>
    intro lastErr
    exact Or.inr ⟨lastErr.getD "undefined", rfl⟩
  | cons s rest ih =>
    intro lastErr
    rcases s with e | parsed
    · exact ih (some e)
    · have hstep : planLoop clean (Except.ok parsed :: rest) lastErr
          = match planFromJson parsed with
            | some plan => Except.ok plan
            | none => planLoop clean rest lastErr := rfl
      rcases hp : planFromJson parsed with _ | plan
      · rw [hstep, hp]
        exact ih lastErr
      · rw [hstep, hp]
        exact Or.inl ⟨plan, rfl⟩

/-- **C8** (amended).  For every model response, `parsePlanResponse` either
returns a parsed plan or fails with a *generic* `Error` (name `"Error"`,
not a `PlanningError` — that class exists in `errors.ts` but is never
thrown) whose message embeds a preview: the first 500 characters of the
cleaned raw text. -/
theorem parsePlanResponse_total (jsonParse : String → Except String Json)
    (repair : String → String) (content : String) :
    (∃ plan, parsePlanResponse jsonParse repair content = Except.ok plan)
    ∨ (∃ le, parsePlanResponse jsonParse repair content
        = Except.error
            { name := "Error",
              message := "Failed to parse research plan: " ++ le
                ++ "\n\nRaw content:\n" ++ strTake (cleanContent content) 500 }) :=
  planLoop_total (cleanContent content) (planStrategies jsonParse repair (cleanContent content))
    none

def errNameOf : Except JsErrorObj ParsedPlan → String
  | .error e => e.name
  | .ok _ => ""

/-- **C8** counterexample: on an unparseable response (every strategy
fails), the planner throws a plain `Error`, whose `name` differs from the
`PlanningError` the claim promises. -/
theorem parsePlan_failure_is_not_planningError :
    errNameOf (parsePlanResponse (fun _ => Except.error "Unexpected token h in JSON")
        (fun s => s) "hello") = "Error"
    ∧ "Error" ≠ (mkPlanningError "Failed to parse research plan").name := by
  constructor
  · rfl
  · decide

/-! ### The fact checker (`agent/fact-checker.ts`)

Model responses enter as oracles (`extractContent` for the claim-extraction
chat, `verifyContent i j` for claim `i` against source `j`, `none` meaning
the call threw); `JSON.parse` is the same oracle as for the planner.  The
JSON-span matching, claim filtering, source filtering/truncation,
first-match-wins verification loop and summary counting are embedded. -/

inductive VStatus where
  | verified
  | partially_verified
  | unverified
deriving DecidableEq, Repr

structure ClaimVerification where
  claim : String
  status : VStatus
  evidence : Option String
  confidence : ℚ
  sourceUrl : Option String
deriving DecidableEq, Repr

structure VerificationResult where
  totalClaims : Nat
  verifiedCount : Nat
  partiallyVerifiedCount : Nat
  unverifiedCount : Nat
  claims : List ClaimVerification
deriving DecidableEq, Repr

/-- `extractClaims`: parse the model's response, keep up to 10 non-blank
string claims; any throw or malformed shape yields `[]`. -/
def extractClaims (jsonParse : String → Except String Json)
    (chatContent : Option String) : List String :=
  match chatContent with
  | none => []
  | some content =>
    let c := jsTrim content
    match braceSpan c with
    | none => []
    | some mjson =>
      match jsonParse mjson with
      | .error _ => []
      | .ok parsed =>
        match parsed.getField "claims" with
        | some (Json.arr claims) =>
          (claims.filterMap fun x =>
            match x with
            | Json.str cs => if jsTrim cs ≠ "" then some cs else none
            | _ => none).take 10
        | _ => []

/-- `verifyClaim`'s source loop: first source whose model verdict is
`verified`/`partially_verified` wins; exhausting the sources (or throwing
on all of them) records the claim `unverified` with confidence 0. -/
def verifyClaimGo (jsonParse : String → Except String Json)
    (chatContent : Nat → Option String) (claim : String) :
    List (Nat × String × String) → ClaimVerification
  | [] =>
    { claim := claim, status := .unverified, evidence := none,
      confidence := 0, sourceUrl := none }
  | (i, url, _text) :: rest =>
    match chatContent i with
    | none => verifyClaimGo jsonParse chatContent claim rest
    | some content =>
      let c := jsTrim content
      match braceSpan c with
      | none => verifyClaimGo jsonParse chatContent claim rest
      | some mjson =>
        match jsonParse mjson with
        | .error _ => verifyClaimGo jsonParse chatContent claim rest
        | .ok parsed =>
          let status :=
            match parsed.getField "status" with
            | some (Json.str "verified") => VStatus.verified
            | some (Json.str "partially_verified") => VStatus.partially_verified
            | _ => VStatus.unverified
          if status = VStatus.unverified then
            verifyClaimGo jsonParse chatContent claim rest
          else
            { claim := claim, status := status,
              evidence :=
                match parsed.getField "evidence" with
                | some (Json.str ev) => some (strTake ev 150)
                | _ => none,
              confidence :=
                match parsed.getField "confidence" with
                | some (Json.num conf) => conf
                | _ => 1/2,
              sourceUrl := some url }

/-- `s.text || s.summary || s.highlights?.length` (truthiness). -/
def sourceHasContent (s : ExaSearchResult) : Bool :=
  (match s.text with | some t => t ≠ "" | none => false)
  || (match s.summary with | some t => t ≠ "" | none => false)
  || (match s.highlights with | some h => h.length ≠ 0 | none => false)

/-- `(s.text || s.summary || s.highlights?.join(' ') || '').slice(0, 3000)`. -/
def sourceTextEntry (s : ExaSearchResult) : String × String :=
  (s.url,
   strTake (jsOrStr (s.text.getD "")
     (jsOrStr (s.summary.getD "")
       (String.intercalate " " (s.highlights.getD [])))) 3000)

/-- `FactChecker.verify`: zero extracted claims short-circuit to the
all-zero result (not an error); otherwise each claim is verified against
the first 10 content-bearing sources and the counts are tallied. -/
def FactChecker.verify (jsonParse : String → Except String Json)
    (extractContent : Option String) (verifyContent : Nat → Nat → Option String)
    (sources : List ExaSearchResult) : VerificationResult :=
  let claims := extractClaims jsonParse extractContent
  if claims = [] then
    { totalClaims := 0, verifiedCount := 0, partiallyVerifiedCount := 0,
      unverifiedCount := 0, claims := [] }
  else
    let sourceTexts := ((sources.filter sourceHasContent).take 10).map sourceTextEntry
    let verifications := claims.enum.map fun p =>
      verifyClaimGo jsonParse (verifyContent p.1) p.2 sourceTexts.enum
    { totalClaims := claims.length,
      verifiedCount := (verifications.filter fun v => v.status = VStatus.verified).length,
      partiallyVerifiedCount :=
        (verifications.filter fun v => v.status = VStatus.partially_verified).length,
      unverifiedCount :=
        (verifications.filter fun v => v.status = VStatus.unverified).length,
      claims := verifications }

/-- `toFixed(0)` on the non-negative rates appearing here: round half up. -/
def jsToFixed0 (q : ℚ) : String := toString (Int.floor (q + 1/2))

/-- `FactChecker.formatAsMarkdown`: empty for a zero-claim result,
otherwise the verification-summary markdown block. -/
def FactChecker.formatAsMarkdown (result : VerificationResult) : String :=
  if result.totalClaims = 0 then ""
  else
    let rate := jsToFixed0 (((result.verifiedCount : ℚ)
      + (result.partiallyVerifiedCount : ℚ) * (1/2)) / (result.totalClaims : ℚ) * 100)
    let lines0 : List String :=
      ["\n\n---\n\n## Verification Summary\n",
       "> [!NOTE]",
       "> **" ++ toString result.verifiedCount ++ "** of **"
         ++ toString result.totalClaims ++ "** claims verified (" ++ rate
         ++ "% confidence)",
       ""]
    let lines1 :=
      if 0 < result.unverifiedCount then
        lines0
          ++ ["> [!CAUTION]",
              "> **" ++ toString result.unverifiedCount
                ++ "** claim(s) could not be verified against sources.",
              ""]
      else lines0
    let unverifiedClaims := result.claims.filter fun c => c.status = VStatus.unverified
    let lines2 :=
      if unverifiedClaims.length ≠ 0 then
        lines1 ++ ["### Unverified Claims\n"]
          ++ ((unverifiedClaims.take 5).enum.map fun p =>
              toString (p.1 + 1) ++ ". *\"" ++ strTake p.2.claim 100
                ++ (if 100 < p.2.claim.length then "..." else "") ++ "\"*")
          ++ (if 5 < unverifiedClaims.length then
                ["\n*...and " ++ toString (unverifiedClaims.length - 5) ++ " more*"]
              else [])
      else lines1
    String.intercalate "\n" lines2

/-- **C9**.  Whenever claim extraction yields zero claims (in particular
when the extraction response is missing, malformed, or lists no usable
claim), `FactChecker.verify` returns the all-zero result without error
(the embedding is a total function), and `formatAsMarkdown` on that result
is the empty string. -/
theorem factChecker_zero_claims (jsonParse : String → Except String Json)
    (extractContent : Option String) (verifyContent : Nat → Nat → Option String)
    (sources : List ExaSearchResult)
    (h : extractClaims jsonParse extractContent = []) :
    FactChecker.verify jsonParse extractContent verifyContent sources
        = { totalClaims := 0, verifiedCount := 0, partiallyVerifiedCount := 0,
            unverifiedCount := 0, claims := [] }
    ∧ FactChecker.formatAsMarkdown
        { totalClaims := 0, verifiedCount := 0, partiallyVerifiedCount := 0,
          unverifiedCount := 0, claims := [] } = "" := by
  constructor
  · unfold FactChecker.verify
    rw [h]
    rfl
  · rfl

/-! ### Environment guardrails (`utils/env.ts` and the
`SubResearchAgent` constructor)

JS numbers are modelled by `JSNum` (a rational, `±Infinity`, or `NaN`);
`Number(...)` string parsing is an oracle.  `envIntOrInfinity` and the
constructor clamps (`Math.min(Math.max(...), HARD_MAX)` with the
`Number.isFinite` replacement) are embedded. -/

inductive JSNum where
  | finite (q : ℚ)
  | posInf
  | negInf
  | nan
deriving DecidableEq, Repr

def JSNum.isFinite : JSNum → Bool
  | .finite _ => true
  | _ => false

def jsNumMax : JSNum → JSNum → JSNum
  | .nan, _ => .nan
  | _, .nan => .nan
  | .posInf, _ => .posInf
  | _, .posInf => .posInf
  | .negInf, b => b
  | a, .negInf => a
  | .finite p, .finite q => .finite (max p q)

def jsNumMin : JSNum → JSNum → JSNum
  | .nan, _ => .nan
  | _, .nan => .nan
  | .negInf, _ => .negInf
  | _, .negInf => .negInf
  | .posInf, b => b
  | a, .posInf => a
  | .finite p, .finite q => .finite (min p q)

def envOptionalNumber (numParse : String → JSNum) (value : Option String) : Option ℚ :=
  match value with
  | none => none
  | some v =>
    let trimmed := jsTrim v
    if trimmed = "" then none
    else
      match numParse trimmed with
      | .finite q => some q
      | _ => none

def envOptionalInt (numParse : String → JSNum) (value : Option String) : Option ℚ :=
  match envOptionalNumber numParse value with
  | none => none
  | some q => if q.den = 1 then some q else none

def envIntOrInfinity (numParse : String → JSNum) (value : Option String)
    (defaultValue : ℚ) : JSNum :=
  match value.map jsTrim with
  | none => .finite defaultValue
  | some t =>
    if t = "" then .finite defaultValue
    else
      let normalized := jsToLower t
      if normalized = "unlimited" ∨ normalized = "infinite" ∨ normalized = "inf" then
        .posInf
      else
        match envOptionalInt numParse (some t) with
        | none => .finite defaultValue
        | some q => if q < 0 then .posInf else .finite q

/-- `maxSearchRounds` resolution in the constructor: the numeric option if
supplied, else the env value; non-finite replaced by the hard cap 50,
then clamped to `[1, 50]`. -/
def resolveMaxSearchRounds (numParse : String → JSNum) (optVal : Option JSNum)
    (envVal : Option String) : JSNum :=
  let raw := match optVal with
    | some v => v
    | none => envIntOrInfinity numParse envVal 5
  jsNumMin (jsNumMax (.finite 1) (if raw.isFinite then raw else .finite 50)) (.finite 50)

/-- `maxExpandedUrls` resolution: as above with floor 0. -/
def resolveMaxExpandedUrls (numParse : String → JSNum) (optVal : Option JSNum)
    (envVal : Option String) : JSNum :=
  let raw := match optVal with
    | some v => v
    | none => envIntOrInfinity numParse envVal 5
  jsNumMin (jsNumMax (.finite 0) (if raw.isFinite then raw else .finite 50)) (.finite 50)

/-- `maxTotalSourceChars` resolution: stored unclamped. -/
def resolveMaxTotalSourceChars (numParse : String → JSNum) (optVal : Option JSNum)
    (envVal : Option String) : JSNum :=
  match optVal with
  | some v => v
  | none => envIntOrInfinity numParse envVal 65000

lemma envIntOrInfinity_eq (numParse : String → JSNum) (v : String) (d : ℚ) :
    envIntOrInfinity numParse (some v) d
      = (if jsTrim v = "" then JSNum.finite d
         else if jsToLower (jsTrim v) = "unlimited" ∨ jsToLower (jsTrim v) = "infinite"
             ∨ jsToLower (jsTrim v) = "inf" then JSNum.posInf
         else
           match envOptionalInt numParse (some (jsTrim v)) with
           | none => JSNum.finite d
           | some q => if q < 0 then JSNum.posInf else JSNum.finite q) := rfl

lemma envOptionalInt_den (numParse : String → JSNum) (value : Option String) (q : ℚ)
    (h : envOptionalInt numParse value = some q) : q.den = 1 := by
  unfold envOptionalInt at h
  rcases hnum : envOptionalNumber numParse value with _ | p
  · rw [hnum] at h
    exact absurd h (by simp)
  · rw [hnum] at h
    have h2 : (if p.den = 1 then some p else (none : Option ℚ)) = some q := h
    by_cases hden : p.den = 1
    · rw [if_pos hden] at h2
      rw [← Option.some.inj h2]
      exact hden
    · rw [if_neg hden] at h2
      exact absurd h2 (by simp)

lemma envMatch_some (d q : ℚ) :
    (match (some q : Option ℚ) with
     | none => JSNum.finite d
     | some q => if q < 0 then JSNum.posInf else JSNum.finite q)
    = if q < 0 then JSNum.posInf else JSNum.finite q := rfl

lemma envIntOrInfinity_posInf_of_keyword (numParse : String → JSNum) (v : String)
    (d : ℚ)
    (h : jsToLower (jsTrim v) = "unlimited" ∨ jsToLower (jsTrim v) = "infinite"
      ∨ jsToLower (jsTrim v) = "inf") :
    envIntOrInfinity numParse (some v) d = JSNum.posInf := by
  rw [envIntOrInfinity_eq]
  have hne : jsTrim v ≠ "" := by
    intro hc
    rw [hc] at h
    have h0 : jsToLower "" = "" := rfl
    rw [h0] at h
    rcases h with h | h | h <;> exact absurd h (by decide)
  rw [if_neg hne, if_pos h]

lemma envIntOrInfinity_den (numParse : String → JSNum) (envVal : Option String)
    (d : ℚ) (hd : d.den = 1) :
    envIntOrInfinity numParse envVal d = JSNum.posInf
    ∨ ∃ q : ℚ, envIntOrInfinity numParse envVal d = JSNum.finite q ∧ q.den = 1 := by
  rcases envVal with _ | v
  · exact Or.inr ⟨d, rfl, hd⟩
  · rw [envIntOrInfinity_eq]
    by_cases h1 : jsTrim v = ""
    · rw [if_pos h1]
      exact Or.inr ⟨d, rfl, hd⟩
    · rw [if_neg h1]
      by_cases h2 : jsToLower (jsTrim v) = "unlimited"
          ∨ jsToLower (jsTrim v) = "infinite" ∨ jsToLower (jsTrim v) = "inf"
      · rw [if_pos h2]
        exact Or.inl rfl
      · rw [if_neg h2]
        rcases hint : envOptionalInt numParse (some (jsTrim v)) with _ | q
        · exact Or.inr ⟨d, rfl, hd⟩
        · rw [envMatch_some d q]
          by_cases hq : q < 0
          · rw [if_pos hq]
            exact Or.inl rfl
          · rw [if_neg hq]
            exact Or.inr ⟨q, rfl, envOptionalInt_den numParse _ q hint⟩

lemma rat_den_max (a b : ℚ) (ha : a.den = 1) (hb : b.den = 1) : (max a b).den = 1 := by
  rcases max_choice a b with h | h <;> rw [h] <;> assumption

lemma rat_den_min (a b : ℚ) (ha : a.den = 1) (hb : b.den = 1) : (min a b).den = 1 := by
  rcases min_choice a b with h | h <;> rw [h] <;> assumption

lemma clampFinite (raw : JSNum) (lo : ℚ) :
    ∃ p : ℚ, (if raw.isFinite then raw else JSNum.finite 50) = JSNum.finite p
      ∧ jsNumMin (jsNumMax (.finite lo) (if raw.isFinite then raw else JSNum.finite 50))
          (.finite 50) = JSNum.finite (min (max lo p) 50) := by
  rcases raw with q | _ | _ | _
  · exact ⟨q, rfl, rfl⟩
  · exact ⟨50, rfl, rfl⟩
  · exact ⟨50, rfl, rfl⟩
  · exact ⟨50, rfl, rfl⟩

/-- **C10** (amended).  `envIntOrInfinity` returns `+Infinity` for the
`unlimited`/`infinite`/`inf` keywords and for negative parsed integers;
the effective `maxSearchRounds` is always a finite value in `[1, 50]` and
`maxExpandedUrls` a finite value in `[0, 50]` (unlimited/NaN/negative
requests clamp into range; environment-derived values are additionally
integers, while a non-integer numeric constructor override passes through
un-rounded — see the counterexample); `maxTotalSourceChars` is stored
unclamped and may remain `+Infinity`. -/
theorem envGuardrails (numParse : String → JSNum) :
    (∀ v d, (jsToLower (jsTrim v) = "unlimited" ∨ jsToLower (jsTrim v) = "infinite"
          ∨ jsToLower (jsTrim v) = "inf") →
        envIntOrInfinity numParse (some v) d = JSNum.posInf)
    ∧ (∀ v d q, envOptionalInt numParse (some (jsTrim v)) = some q → q < 0 →
        envIntOrInfinity numParse (some v) d = JSNum.posInf)
    ∧ (∀ optVal envVal, ∃ q : ℚ,
        resolveMaxSearchRounds numParse optVal envVal = JSNum.finite q
        ∧ 1 ≤ q ∧ q ≤ 50 ∧ (optVal = none → q.den = 1))
    ∧ (∀ optVal envVal, ∃ q : ℚ,
        resolveMaxExpandedUrls numParse optVal envVal = JSNum.finite q
        ∧ 0 ≤ q ∧ q ≤ 50 ∧ (optVal = none → q.den = 1))
    ∧ (∀ envVal, resolveMaxTotalSourceChars numParse (some JSNum.posInf) envVal
        = JSNum.posInf)
    ∧ (∀ v, jsToLower (jsTrim v) = "unlimited" →
        resolveMaxTotalSourceChars numParse none (some v) = JSNum.posInf) := by
  refine ⟨?_, ?_, ?_, ?_, fun envVal => rfl, ?_⟩
  · exact fun v d h => envIntOrInfinity_posInf_of_keyword numParse v d h
  · intro v d q hint hq
    rw [envIntOrInfinity_eq]
    have hne : jsTrim v ≠ "" := by
      intro hc
      rw [hc] at hint
      have h0 : envOptionalInt numParse (some "") = none := rfl
      rw [h0] at hint
      exact absurd hint (by simp)
    rw [if_neg hne]
    by_cases h2 : jsToLower (jsTrim v) = "unlimited"
        ∨ jsToLower (jsTrim v) = "infinite" ∨ jsToLower (jsTrim v) = "inf"
    · rw [if_pos h2]
    · rw [if_neg h2, hint, envMatch_some d q, if_pos hq]
  · intro optVal envVal
    rcases optVal with _ | ov
    · rcases envIntOrInfinity_den numParse envVal 5 rfl with hinf | ⟨p, hp, hpden⟩
      · refine ⟨50, ?_, by norm_num, by norm_num, fun _ => by norm_num⟩
        show jsNumMin (jsNumMax (.finite 1)
          (if (envIntOrInfinity numParse envVal 5).isFinite
            then envIntOrInfinity numParse envVal 5 else JSNum.finite 50))
          (.finite 50) = JSNum.finite 50
        rw [hinf]
        show JSNum.finite (min (max 1 50) 50) = JSNum.finite 50
        norm_num
      · refine ⟨min (max 1 p) 50, ?_, le_min (le_max_left 1 p) (by norm_num),
          min_le_right _ _, fun _ => rat_den_min _ _ (rat_den_max _ _ rfl hpden) rfl⟩
        show jsNumMin (jsNumMax (.finite 1)
          (if (envIntOrInfinity numParse envVal 5).isFinite
            then envIntOrInfinity numParse envVal 5 else JSNum.finite 50))
          (.finite 50) = JSNum.finite (min (max 1 p) 50)
        rw [hp]
        rfl
    · obtain ⟨p, -, hclamp⟩ := clampFinite ov 1
      exact ⟨min (max 1 p) 50, hclamp,
        le_min (le_max_left 1 p) (by norm_num), min_le_right _ _,
        fun hc => absurd hc (by simp)⟩
  · intro optVal envVal
    rcases optVal with _ | ov
    · rcases envIntOrInfinity_den numParse envVal 5 rfl with hinf | ⟨p, hp, hpden⟩
      · refine ⟨50, ?_, by norm_num, by norm_num, fun _ => by norm_num⟩
        show jsNumMin (jsNumMax (.finite 0)
          (if (envIntOrInfinity numParse envVal 5).isFinite
            then envIntOrInfinity numParse envVal 5 else JSNum.finite 50))
          (.finite 50) = JSNum.finite 50
        rw [hinf]
        show JSNum.finite (min (max 0 50) 50) = JSNum.finite 50
        norm_num
      · refine ⟨min (max 0 p) 50, ?_, le_min (le_max_left 0 p) (by norm_num),
          min_le_right _ _, fun _ => rat_den_min _ _ (rat_den_max _ _ rfl hpden) rfl⟩
        show jsNumMin (jsNumMax (.finite 0)
          (if (envIntOrInfinity numParse envVal 5).isFinite
            then envIntOrInfinity numParse envVal 5 else JSNum.finite 50))
          (.finite 50) = JSNum.finite (min (max 0 p) 50)
        rw [hp]
        rfl
    · obtain ⟨p, -, hclamp⟩ := clampFinite ov 0
      exact ⟨min (max 0 p) 50, hclamp,
        le_min (le_max_left 0 p) (by norm_num), min_le_right _ _,
        fun hc => absurd hc (by simp)⟩
  · intro v hv
    show envIntOrInfinity numParse (some v) 65000 = JSNum.posInf
    exact envIntOrInfinity_posInf_of_keyword numParse v 65000 (Or.inl hv)

/-- **C10** counterexample: a non-integer numeric constructor override
(`maxSearchRounds: 2.5`) passes the `typeof === 'number'` check and the
`[1, 50]` clamp unchanged, so the effective `maxSearchRounds` is `5/2` —
not a "finite integer" as claimed. -/
theorem maxSearchRounds_not_integer :
    resolveMaxSearchRounds (fun _ => JSNum.nan) (some (JSNum.finite (5 / 2))) none
        = JSNum.finite (5 / 2)
    ∧ ((5 : ℚ) / 2).den ≠ 1 := by
  constructor
  · show JSNum.finite (min (max 1 (5 / 2)) 50) = JSNum.finite (5 / 2)
    norm_num
  · norm_num

/-! ### Concrete witnesses

Each theorem above whose statement carries a hypothesis is exercised here
on a concrete input, with every hypothesis discharged by evaluation. -/

def wStepA : ResearchStep :=
  { id := 1, question := "q1", searchQuery := "s1", purpose := "", status := .pending }

def wStepB : ResearchStep :=
  { id := 2, question := "q2", searchQuery := "s2", purpose := "", status := .pending }

def wSteps : List ResearchStep := [wStepA, wStepB]

def wOkReport : SubAgentReport :=
  { step := wStepA, summary := "ok", sources := [], expandedSources := none,
    keyInsights := [] }

def wOutcomes : Nat → Except String SubAgentReport
  | 0 => Except.ok wOkReport
  | _ => Except.error "boom"

theorem runParallelResearch_contract_witness :
    (poolRun wSteps.length (expectedReport wSteps wOutcomes)
        (initPool wSteps.length 1) [0, 0, 0, 0, 0]).results.get? 1
      = some (some (expectedReport wSteps wOutcomes 1)) :=
  (runParallelResearch_contract wSteps wOutcomes 1 (by decide) [0, 0, 0, 0, 0]
    (by decide)).2.1 1 (by decide)

def wRecA : ExaSearchResult :=
  { id := "1", url := "https://a.example", title := "ta", score := some 1,
    publishedDate := none, author := none, text := some "ab",
    highlights := none, summary := none }

def wRecB : ExaSearchResult :=
  { id := "2", url := "https://a.example", title := "tb", score := some 2,
    publishedDate := none, author := none, text := some "cd",
    highlights := none, summary := none }

theorem mergeResult_max_and_idem_witness :
    (mergeFold wRecA [wRecB]).score
      = some (([wRecB].map (fun r => optScore r.score)).foldl max (optScore wRecA.score)) :=
  (mergeResult_max_and_idem wRecA [wRecB]).2.2.2.1 (by decide)

def wTrace : List RoundTrace :=
  runGapRounds cexGapOracle 5 0 3 (initialExecuted cexPlanSteps)

def wRound : RoundTrace := wTrace.headD ⟨∅, ∅, [], []⟩

def wGap : Gap := wRound.accepted.headD { question := "", query := "", purpose := "" }

theorem gapLoop_dedup_witness :
    normalizeQueryKey wGap.query ∉ initialExecuted cexPlanSteps :=
  (gapLoop_dedup cexGapOracle 5 3 cexPlanSteps 0 wRound (by decide)).2.1 wGap (by decide)

theorem research_depth_bounded_witness :
    0 ∈ (researchModel dupOracle dupCfg 0 1 dupStep []).invocations ∧ (0 : Nat) ≤ 1 :=
  ⟨by decide,
   (research_depth_bounded dupOracle dupCfg dupStep []).1 0 1 (by decide) 0 (by decide)⟩

theorem analyzeSources_budget_witness :
    (ContextEntry.mk dupSource "x").content.length
      ≤ perSourceCap 2200 4500 [] dupSource :=
  (analyzeSources_budget 2200 4500 65000 [] [dupSource]).2.1
    (ContextEntry.mk dupSource "x") (by decide)

theorem research_sources_nodup_witness :
    (((researchModel dupOracle dupCfg 1 1 dupStep [0]).report.sources).map
      (fun s => s.url)).Nodup :=
  research_sources_nodup_without_recursion dupOracle dupCfg 1 1 dupStep [0] (by decide)

theorem gapSteps_round_ids_witness :
    2 < ({ id := 3, question := "g", searchQuery := "g", purpose := "p",
           status := .pending } : ResearchStep).id :=
  (gapSteps_round_ids 2 [{ question := "g", query := "g", purpose := "p" }]).2.2.1
    { id := 3, question := "g", searchQuery := "g", purpose := "p", status := .pending }
    (by decide)

theorem factChecker_zero_claims_witness :
    FactChecker.verify (fun _ => Except.error "bad") none (fun _ _ => none) []
      = { totalClaims := 0, verifiedCount := 0, partiallyVerifiedCount := 0,
          unverifiedCount := 0, claims := [] } :=
  (factChecker_zero_claims (fun _ => Except.error "bad") none (fun _ _ => none) []
    (by decide)).1

theorem envGuardrails_witness :
    envIntOrInfinity (fun _ => JSNum.nan) (some " UNLIMITED ") 5 = JSNum.posInf :=
  (envGuardrails (fun _ => JSNum.nan)).1 " UNLIMITED " 5 (by decide)

end ResearchCli
